import Mathlib

/-!
Verification of the aoc2022 repository against its specification.

Each day's program is shallowly embedded: pure Rust functions become Lean
functions, machine integers become `Nat`/`Int` with explicit wrap-around
(`% 2^w`) where width matters, and panicking operations become
`Option`-valued functions that return `none` exactly where the Rust code
aborts.
-/

namespace Day02

/-- The three moves of rock-paper-scissors, from day02/src/main.rs. -/
inductive Move
| rock
| paper
| scissors
deriving DecidableEq

/-- score_of from day02/src/main.rs: shape score plus outcome score. -/
def score_of : Move → Move → Nat
| .rock, .rock => 3 + 1
| .rock, .paper => 6 + 2
| .rock, .scissors => 0 + 3
| .paper, .rock => 0 + 1
| .paper, .paper => 3 + 2
| .paper, .scissors => 6 + 3
| .scissors, .rock => 6 + 1
| .scissors, .paper => 0 + 2
| .scissors, .scissors => 3 + 3

/-- part1_round_score from day02/src/main.rs: a literal match on the whole
line, with a default arm `_ => 0` for any unrecognized line. -/
def part1_round_score (line : String) : Nat :=
if line = "A X" then score_of .rock .rock
else if line = "A Y" then score_of .rock .paper
else if line = "A Z" then score_of .rock .scissors
else if line = "B X" then score_of .paper .rock
else if line = "B Y" then score_of .paper .paper
else if line = "B Z" then score_of .paper .scissors
else if line = "C X" then score_of .scissors .rock
else if line = "C Y" then score_of .scissors .paper
else if line = "C Z" then score_of .scissors .scissors
else 0

/-- part2_round_score from day02/src/main.rs. -/
def part2_round_score (line : String) : Nat :=
if line = "A X" then score_of .rock .scissors
else if line = "A Y" then score_of .rock .rock
else if line = "A Z" then score_of .rock .paper
else if line = "B X" then score_of .paper .rock
else if line = "B Y" then score_of .paper .paper
else if line = "B Z" then score_of .paper .scissors
else if line = "C X" then score_of .scissors .paper
else if line = "C Y" then score_of .scissors .scissors
else if line = "C Z" then score_of .scissors .rock
else 0

end Day02

/-- Split a character list at newline characters; the accumulator holds the
current (reversed) segment. -/
def linesCore : List Char → List Char → List (List Char)
| cur, [] => [cur.reverse]
| cur, c :: cs => if c = '\n' then cur.reverse :: linesCore [] cs else linesCore (c :: cur) cs

/-- Rust `str::lines()` on newline-terminated text: split at each `\x0A`,
with no final empty segment for a trailing newline and `[]` for `""`. -/
def rustLines (s : String) : List String :=
match s.data with
| [] => []
| cs =>
  let segs := (linesCore [] cs).map String.mk
  if cs.getLast? = some '\n' then segs.dropLast else segs

namespace Day02

/-- calculate_part from day02/src/main.rs: sum the per-line score function
over the lines of the input. -/
def calculate_part (input : String) (f : String → Nat) : Nat :=
((rustLines input).map f).sum

end Day02

namespace Day03

/-- Rust char::is_ascii_lowercase: true exactly on the code points 97..=122. -/
def is_ascii_lowercase (c : Char) : Bool := 97 ≤ c.toNat && c.toNat ≤ 122

/-- priority from day03/src/main.rs: `item as u32 - 96` on ASCII lowercase,
`item as u32 - 38` otherwise (the program only applies it to letters, so no
u32 underflow occurs on its inputs). -/
def priority (c : Char) : Nat :=
if is_ascii_lowercase c then c.toNat - 96 else c.toNat - 38

/-- Property AsciiLetter c: c is an ASCII letter (the domain on which the
claim about priority is stated). -/
def AsciiLetter (c : Char) : Prop :=
(97 ≤ c.toNat ∧ c.toNat ≤ 122) ∨ (65 ≤ c.toNat ∧ c.toNat ≤ 90)

end Day03

namespace Day01

/-- Content of the test module of day01/src/main.rs, as (example input,
expected part-1 answer, expected part-2 answer): the file consists of `main`
alone and contains no `#[cfg(test)]` module, so it embeds no example input
and no expected answers; the embedding records this absence as `none`. -/
def embedded_example_tests : Option (String × Nat × Nat) := none

end Day01

/-- Numeric value of an ASCII digit character, `none` on anything else. -/
def digVal (c : Char) : Option Nat :=
if 48 ≤ c.toNat ∧ c.toNat ≤ 57 then some (c.toNat - 48) else none

/-- Accumulate a base-10 value over a character list; fails on the first
non-digit. -/
def digitsVal : List Char → Nat → Option Nat
| [], acc => some acc
| c :: cs, acc =>
  match digVal c with
  | none => none
  | some d => digitsVal cs (acc * 10 + d)

/-- Rust `i64::from_str`: an optional sign, then one or more ASCII digits,
rejecting the empty digit string and any value outside the i64 range. -/
def parseI64 (s : String) : Option Int :=
let cs := s.data
let signRest : Int × List Char :=
  match cs with
  | '+' :: r => (1, r)
  | '-' :: r => (-1, r)
  | r => (1, r)
match signRest.2 with
| [] => none
| _ =>
  match digitsVal signRest.2 0 with
  | none => none
  | some n =>
    let v : Int := signRest.1 * n
    if -(2 ^ 63) ≤ v ∧ v ≤ 2 ^ 63 - 1 then some v else none

namespace Day20

/-- ListEntry from day20.rs: a value plus the indices of the circular
neighbours. -/
structure DEntry where
  value : Int
  prev : Nat
  next : Nat
deriving DecidableEq

instance : Inhabited DEntry := ⟨⟨0, 0, 0⟩⟩

/-- List from day20.rs. -/
structure DayList where
  zeroIdx : Nat
  entries : List DEntry
deriving DecidableEq

/-- Entry construction inside List::from_str: index i points back to i-1
(wrapping to the end) and forward to i+1 (wrapping to 0). -/
def buildEntries (values : List Int) : List DEntry :=
values.enum.map fun pv =>
  ⟨pv.2,
   if pv.1 > 0 then pv.1 - 1 else values.length - 1,
   if pv.1 < values.length - 1 then pv.1 + 1 else 0⟩

/-- List::from_str from day20.rs: parse every line as an i64 (failing the
whole parse if any line fails), build the circular entries, and require
exactly one zero value. -/
def listFromStr (s : String) : Option DayList :=
match (rustLines s).mapM parseI64 with
| none => none
| some values =>
  let entries := buildEntries values
  match (entries.enum.filter fun pe => pe.2.value = 0).map Prod.fst with
  | [z] => some ⟨z, entries⟩
  | _ => none

/-- Successor pointer stored at index i (entries[i].next). -/
def nextE (es : List DEntry) (i : Nat) : Nat := (es.getD i default).next

/-- Predecessor pointer stored at index i (entries[i].prev). -/
def prevE (es : List DEntry) (i : Nat) : Nat := (es.getD i default).prev

/-- Value stored at index i (entries[i].value). -/
def valueE (es : List DEntry) (i : Nat) : Int := (es.getD i default).value

/-- Assignment entries[i].next = v. -/
def setNextE (es : List DEntry) (i v : Nat) : List DEntry :=
es.set i { es.getD i default with next := v }

/-- Assignment entries[i].prev = v. -/
def setPrevE (es : List DEntry) (i v : Nat) : List DEntry :=
es.set i { es.getD i default with prev := v }

/-- List::remove from day20.rs: unlink index i by routing its neighbours
around it (i's own pointers are left in place). -/
def removeD (es : List DEntry) (i : Nat) : List DEntry :=
let p := prevE es i
let n := nextE es i
setNextE (setPrevE es n p) p n

/-- List::insert from day20.rs: splice index i in right after newPrev. -/
def insertD (es : List DEntry) (i newPrev : Nat) : List DEntry :=
let newNext := nextE es newPrev
setPrevE (setNextE (setPrevE (setNextE es newPrev i) newNext i) i newNext) i newPrev

/-- Walk k steps along the next pointers. -/
def walkNext (es : List DEntry) : Nat → Nat → Nat
| 0, i => i
| k + 1, i => walkNext es k (nextE es i)

/-- Walk k steps along the prev pointers. -/
def walkPrev (es : List DEntry) : Nat → Nat → Nat
| 0, i => i
| k + 1, i => walkPrev es k (prevE es i)

/-- List::seek from day20.rs: reduce the signed amount modulo the (possibly
pretend-removed) length with Rust's truncating `%`, then walk; a negative
amount walks one extra step back. Rust panics on a zero modulus (a list of
one entry with pretend_removed), modelled by `none`. -/
def seekD (es : List DEntry) (i : Nat) (amount : Int) (pretendRemoved : Bool) :
    Option Nat :=
let m : Nat := if pretendRemoved then es.length - 1 else es.length
if m = 0 then none
else
  let a := Int.tmod amount m
  if 0 < a then some (walkNext es a.toNat i)
  else if a < 0 then some (walkPrev es (a.natAbs + 1) i)
  else some i

/-- One iteration of the loop in List::mix: seek from i by its value with
pretend_removed, and if the landing spot differs from i, remove i and
re-insert it there. -/
def moveOneD (es : List DEntry) (i : Nat) : Option (List DEntry) :=
match seekD es i (valueE es i) true with
| none => none
| some newPrev =>
  if newPrev = i then some es else some (insertD (removeD es i) i newPrev)

/-- Iterate moveOneD over a list of indices, failing if any step fails. -/
def mixFrom : List Nat → List DEntry → Option (List DEntry)
| [], es => some es
| i :: rest, es =>
  match moveOneD es i with
  | none => none
  | some es2 => mixFrom rest es2

/-- List::mix from day20.rs: move every index once, in index order. -/
def mixD (es : List DEntry) : Option (List DEntry) :=
mixFrom (List.range es.length) es

/-- Link es a b: the pointers record b as a's cyclic successor. -/
def Link (es : List DEntry) (a b : Nat) : Prop :=
nextE es a = b ∧ prevE es b = a

/-- Ring es L: walking L and wrapping from its last element back to its
first follows the doubly linked pointers exactly. -/
def Ring (es : List DEntry) (L : List Nat) : Prop :=
List.Chain' (Link es) (L ++ [L.headD 0])

/-- WF es: some enumeration of all the indices of es forms a single
doubly linked cycle. -/
def WF (es : List DEntry) : Prop :=
∃ L : List Nat, List.Perm L (List.range es.length) ∧ Ring es L

theorem getD_set_self {es : List DEntry} {i : Nat} {e : DEntry}
    (h : i < es.length) : (es.set i e).getD i default = e := by
  simp [List.getD, List.getElem?_set_self, h]

theorem getD_set_ne {es : List DEntry} {i j : Nat} {e : DEntry}
    (h : i ≠ j) : (es.set i e).getD j default = es.getD j default := by
  simp [List.getD, List.getElem?_set_ne h]

theorem set_of_le {es : List DEntry} {i : Nat} {e : DEntry}
    (h : es.length ≤ i) : es.set i e = es :=
  List.set_eq_of_length_le h

theorem length_setNextE (es : List DEntry) (i v : Nat) :
    (setNextE es i v).length = es.length := by
  simp [setNextE]

theorem length_setPrevE (es : List DEntry) (i v : Nat) :
    (setPrevE es i v).length = es.length := by
  simp [setPrevE]

theorem nextE_setNextE (es : List DEntry) (i v a : Nat) :
    nextE (setNextE es i v) a =
      if a = i ∧ i < es.length then v else nextE es a := by
  by_cases h1 : a = i
  · subst h1
    by_cases h2 : a < es.length
    · rw [if_pos ⟨rfl, h2⟩]
      unfold nextE setNextE
      rw [getD_set_self h2]
    · rw [if_neg (by tauto)]
      unfold setNextE
      rw [set_of_le (Nat.le_of_not_lt h2)]
  · rw [if_neg (by tauto)]
    unfold nextE setNextE
    rw [getD_set_ne (Ne.symm h1)]

theorem nextE_setPrevE (es : List DEntry) (i v a : Nat) :
    nextE (setPrevE es i v) a = nextE es a := by
  by_cases h1 : a = i
  · subst h1
    by_cases h2 : a < es.length
    · unfold nextE setPrevE
      rw [getD_set_self h2]
    · unfold setPrevE
      rw [set_of_le (Nat.le_of_not_lt h2)]
  · unfold nextE setPrevE
    rw [getD_set_ne (Ne.symm h1)]

theorem prevE_setPrevE (es : List DEntry) (i v a : Nat) :
    prevE (setPrevE es i v) a =
      if a = i ∧ i < es.length then v else prevE es a := by
  by_cases h1 : a = i
  · subst h1
    by_cases h2 : a < es.length
    · rw [if_pos ⟨rfl, h2⟩]
      unfold prevE setPrevE
      rw [getD_set_self h2]
    · rw [if_neg (by tauto)]
      unfold setPrevE
      rw [set_of_le (Nat.le_of_not_lt h2)]
  · rw [if_neg (by tauto)]
    unfold prevE setPrevE
    rw [getD_set_ne (Ne.symm h1)]

theorem prevE_setNextE (es : List DEntry) (i v a : Nat) :
    prevE (setNextE es i v) a = prevE es a := by
  by_cases h1 : a = i
  · subst h1
    by_cases h2 : a < es.length
    · unfold prevE setNextE
      rw [getD_set_self h2]
    · unfold setNextE
      rw [set_of_le (Nat.le_of_not_lt h2)]
  · unfold prevE setNextE
    rw [getD_set_ne (Ne.symm h1)]

theorem mapValue_set (es : List DEntry) (i : Nat) (e : DEntry)
    (h : e.value = (es.getD i default).value) :
    (es.set i e).map DEntry.value = es.map DEntry.value := by
  apply List.ext_getElem?
  intro j
  by_cases h1 : j = i
  · subst h1
    by_cases h2 : j < es.length
    · have hg : es.getD j default = es[j] := by
        simp [List.getD, List.getElem?_eq_getElem h2]
      simp only [List.getElem?_map]
      rw [show (es.set j e)[j]? = some e by simp [List.getElem?_set_self, h2]]
      rw [List.getElem?_eq_getElem h2]
      simp only [Option.map_some']
      rw [h, hg]
    · rw [set_of_le (Nat.le_of_not_lt h2)]
  · simp [List.getElem?_set_ne (Ne.symm h1)]

theorem mapValue_setNextE (es : List DEntry) (i v : Nat) :
    (setNextE es i v).map DEntry.value = es.map DEntry.value :=
  mapValue_set es i _ rfl

theorem mapValue_setPrevE (es : List DEntry) (i v : Nat) :
    (setPrevE es i v).map DEntry.value = es.map DEntry.value :=
  mapValue_set es i _ rfl

theorem length_removeD (es : List DEntry) (i : Nat) :
    (removeD es i).length = es.length := by
  simp [removeD, length_setNextE, length_setPrevE]

theorem length_insertD (es : List DEntry) (i j : Nat) :
    (insertD es i j).length = es.length := by
  simp [insertD, length_setNextE, length_setPrevE]

theorem mapValue_removeD (es : List DEntry) (i : Nat) :
    (removeD es i).map DEntry.value = es.map DEntry.value := by
  simp [removeD, mapValue_setNextE, mapValue_setPrevE]

theorem mapValue_insertD (es : List DEntry) (i j : Nat) :
    (insertD es i j).map DEntry.value = es.map DEntry.value := by
  simp [insertD, mapValue_setNextE, mapValue_setPrevE]

theorem ring_rot_front (es : List DEntry) (a : Nat) (P Q : List Nat)
    (h : Ring es (P ++ a :: Q)) : Ring es (a :: (Q ++ P)) := by
  cases P with
  | nil => simpa [Ring] using h
  | cons p P2 =>
    unfold Ring at h ⊢
    rw [show ((p :: P2) ++ a :: Q) ++ [((p :: P2) ++ a :: Q).headD 0]
          = (p :: P2) ++ a :: (Q ++ [p]) by simp] at h
    rw [List.chain'_split] at h
    rw [show (a :: (Q ++ p :: P2)) ++ [(a :: (Q ++ p :: P2)).headD 0]
          = (a :: Q) ++ p :: (P2 ++ [a]) by simp]
    rw [List.chain'_split]
    constructor
    · simpa using h.2
    · simpa using h.1

theorem ring_head_link (es : List DEntry) (a : Nat) (K : List Nat)
    (h : Ring es (a :: K)) : Link es a ((K ++ [a]).headD 0) := by
  unfold Ring at h
  have h2 := List.chain'_cons'.mp (by simpa using h)
  apply h2.1
  cases K <;> simp

theorem ring_last_link (es : List DEntry) (b : Nat) (P : List Nat)
    (h : Ring es (P ++ [b])) : Link es b ((P ++ [b]).headD 0) := by
  unfold Ring at h
  rw [show (P ++ [b]) ++ [(P ++ [b]).headD 0]
        = P ++ b :: [(P ++ [b]).headD 0] by simp] at h
  exact ((List.chain'_split.mp h).2).rel_head

theorem ring_succ_mem (es : List DEntry) (L : List Nat) (hL : Ring es L)
    (a : Nat) (ha : a ∈ L) : Link es a (nextE es a) ∧ nextE es a ∈ L := by
  obtain ⟨P, Q, rfl⟩ := List.append_of_mem ha
  have h2 := ring_rot_front es a P Q hL
  have h3 := ring_head_link es a _ h2
  have hn : nextE es a = (((Q ++ P)) ++ [a]).headD 0 := h3.1
  refine ⟨hn ▸ h3, ?_⟩
  rw [hn]
  cases Q with
  | nil =>
    cases P with
    | nil => simp
    | cons p P2 => simp
  | cons q Q2 => simp

theorem ring_pred_mem (es : List DEntry) (L : List Nat) (hL : Ring es L)
    (a : Nat) (ha : a ∈ L) : Link es (prevE es a) a ∧ prevE es a ∈ L := by
  obtain ⟨P, Q, rfl⟩ := List.append_of_mem ha
  cases P with
  | nil =>
    have hL2 : List.Chain' (Link es) ((a :: Q) ++ [a]) := by
      have := hL
      unfold Ring at this
      simpa using this
    have h2 := List.chain'_append.mp hL2
    have h3 := h2.2.2 ((a :: Q).getLast (by simp))
      (by simp [List.getLast?_eq_getLast]) a (by simp)
    have hp : prevE es a = (a :: Q).getLast (by simp) := h3.2
    refine ⟨?_, ?_⟩
    · rw [hp]
      exact h3
    · rw [hp]
      simpa using List.getLast_mem (l := a :: Q) (by simp)
  | cons p P2 =>
    unfold Ring at hL
    rw [show ((p :: P2) ++ a :: Q) ++ [((p :: P2) ++ a :: Q).headD 0]
          = (p :: P2) ++ a :: (Q ++ [p]) by simp] at hL
    have h2 := (List.chain'_split.mp hL).1
    have h3 := List.chain'_append.mp h2
    have h4 := h3.2.2 ((p :: P2).getLast (by simp))
      (by simp [List.getLast?_eq_getLast]) a (by simp)
    have hp : prevE es a = (p :: P2).getLast (by simp) := h4.2
    refine ⟨?_, ?_⟩
    · rw [hp]
      exact h4
    · rw [hp]
      exact List.mem_append_left _ (List.getLast_mem (l := p :: P2) (by simp))

theorem ring_next_prev (es : List DEntry) (L : List Nat) (hL : Ring es L)
    (a : Nat) (ha : a ∈ L) : prevE es (nextE es a) = a :=
  (ring_succ_mem es L hL a ha).1.2

theorem ring_prev_next (es : List DEntry) (L : List Nat) (hL : Ring es L)
    (a : Nat) (ha : a ∈ L) : nextE es (prevE es a) = a :=
  (ring_pred_mem es L hL a ha).1.1

theorem chain_iterate (es : List DEntry) :
    ∀ K : List Nat, List.Chain' (Link es) K →
      ∀ m, m < K.length → (nextE es)^[m] (K.headD 0) = K.getD m 0 := by
  intro K
  induction K with
  | nil =>
    intro _ m hm
    simp at hm
  | cons x K2 ih =>
    intro h m hm
    cases m with
    | zero => simp
    | succ m2 =>
      cases K2 with
      | nil => simp at hm
      | cons y K3 =>
        have hxy : Link es x y := h.rel_head
        rw [show (x :: y :: K3).headD 0 = x by rfl]
        rw [Function.iterate_succ_apply, hxy.1]
        have := ih h.tail m2 (by simpa using Nat.lt_of_succ_lt_succ hm)
        simpa using this

theorem ring_reach (es : List DEntry) (L : List Nat) (hL : Ring es L)
    (h0 : 0 ∈ L) : ∀ a ∈ L, ∃ k, k < L.length ∧ (nextE es)^[k] 0 = a := by
  obtain ⟨P, Q, rfl⟩ := List.append_of_mem h0
  have hrot := ring_rot_front es 0 P Q hL
  intro a ha
  have ha2 : a ∈ 0 :: (Q ++ P) := by
    simp only [List.mem_append, List.mem_cons] at ha ⊢
    tauto
  obtain ⟨m, hm, hget⟩ := List.getElem_of_mem ha2
  refine ⟨m, ?_, ?_⟩
  · simp only [List.length_cons, List.length_append] at hm ⊢
    omega
  · unfold Ring at hrot
    have hlen : m < ((0 :: (Q ++ P)) ++ [(0 :: (Q ++ P)).headD 0]).length := by
      simp only [List.length_cons, List.length_append] at hm ⊢
      omega
    have hit := chain_iterate es _ hrot m hlen
    rw [show ((0 :: (Q ++ P)) ++ [(0 :: (Q ++ P)).headD 0]).headD 0 = 0 by rfl] at hit
    rw [hit]
    rw [List.getD_append _ _ _ _ hm]
    rw [List.getD_eq_getElem?_getD, List.getElem?_eq_getElem hm, Option.getD_some, hget]

theorem walkNext_mem (es : List DEntry) (L : List Nat) (hL : Ring es L) :
    ∀ k x, x ∈ L → walkNext es k x ∈ L := by
  intro k
  induction k with
  | zero => intro x hx; simpa [walkNext] using hx
  | succ k2 ih =>
    intro x hx
    unfold walkNext
    exact ih _ (ring_succ_mem es L hL x hx).2

theorem walkPrev_mem (es : List DEntry) (L : List Nat) (hL : Ring es L) :
    ∀ k x, x ∈ L → walkPrev es k x ∈ L := by
  intro k
  induction k with
  | zero => intro x hx; simpa [walkPrev] using hx
  | succ k2 ih =>
    intro x hx
    unfold walkPrev
    exact ih _ (ring_pred_mem es L hL x hx).2

theorem chain_transfer {es es2 : List DEntry} {K : List Nat}
    (h : List.Chain' (Link es) K)
    (hx : ∀ x ∈ K, ∀ y ∈ K, Link es x y → Link es2 x y) :
    List.Chain' (Link es2) K :=
  (List.Chain'.iff_mem.mp h).imp fun a b hab => hx a hab.1 b hab.2.1 hab.2.2

theorem ring_remove (es : List DEntry) (i : Nat) (K : List Nat)
    (hRing : Ring es (i :: K)) (hnd : (i :: K).Nodup)
    (hmem : ∀ x ∈ i :: K, x < es.length) (hK : K ≠ []) :
    Ring (removeD es i) K := by
  obtain ⟨k0, K2, rfl⟩ : ∃ k0 K2, K = k0 :: K2 := by
    cases K with
    | nil => exact absurd rfl hK
    | cons a b => exact ⟨a, b, rfl⟩
  have hiK : i ∉ k0 :: K2 := (List.nodup_cons.mp hnd).1
  have hsucc : Link es i k0 := by
    have := ring_head_link es i (k0 :: K2) hRing
    simpa using this
  have hc : List.Chain' (Link es) ((i :: k0 :: K2) ++ [i]) := hRing
  have hlast : Link es ((k0 :: K2).getLast (by simp)) i := by
    have h2 := List.chain'_append.mp hc
    apply h2.2.2
    · rw [List.getLast?_cons_cons]
      exact List.getLast?_eq_getLast _ (by simp)
    · simp
  have hchainK : List.Chain' (Link es) (k0 :: K2) :=
    ((List.chain'_append.mp hc).1).tail
  have hni : nextE es i = k0 := hsucc.1
  have hpi : prevE es i = (k0 :: K2).getLast (by simp) := hlast.2
  have hnl : nextE es ((k0 :: K2).getLast (by simp)) = i := hlast.1
  have hpk0 : prevE es k0 = i := hsucc.2
  have hllen : (k0 :: K2).getLast (by simp) < es.length :=
    hmem _ (List.mem_cons_of_mem i (List.getLast_mem _))
  have hk0len : k0 < es.length := hmem k0 (by simp)
  have hrm : removeD es i
      = setNextE (setPrevE es k0 ((k0 :: K2).getLast (by simp)))
          ((k0 :: K2).getLast (by simp)) k0 := by
    simp only [removeD]
    rw [hni, hpi]
  have hwrap : Link (removeD es i) ((k0 :: K2).getLast (by simp)) k0 := by
    rw [hrm]
    constructor
    · rw [nextE_setNextE, if_pos ⟨rfl, by rw [length_setPrevE]; exact hllen⟩]
    · rw [prevE_setNextE, prevE_setPrevE, if_pos ⟨rfl, hk0len⟩]
  have htrans : List.Chain' (Link (removeD es i)) (k0 :: K2) := by
    apply chain_transfer hchainK
    intro x hx y hy hxy
    have hxl : x ≠ (k0 :: K2).getLast (by simp) := by
      intro e
      apply hiK
      have : y = i := by rw [← hxy.1, e, hnl]
      exact this ▸ hy
    have hyk : y ≠ k0 := by
      intro e
      apply hiK
      have : x = i := by rw [← hxy.2, e, hpk0]
      exact this ▸ hx
    rw [hrm]
    constructor
    · rw [nextE_setNextE, if_neg (fun hcc => hxl hcc.1), nextE_setPrevE, hxy.1]
    · rw [prevE_setNextE, prevE_setPrevE, if_neg (fun hcc => hyk hcc.1), hxy.2]
  show List.Chain' (Link (removeD es i)) ((k0 :: K2) ++ [k0])
  rw [List.chain'_append]
  refine ⟨htrans, List.chain'_singleton k0, ?_⟩
  intro x hxl' y hy'
  rw [List.getLast?_eq_getLast _ (by simp)] at hxl'
  simp only [Option.mem_def, Option.some_inj] at hxl'
  simp only [List.head?_cons, Option.mem_def, Option.some_inj] at hy'
  rw [← hxl', ← hy']
  exact hwrap

theorem ring_insert (es : List DEntry) (i j : Nat) (K : List Nat)
    (hRing : Ring es (j :: K)) (hnd : (j :: K).Nodup)
    (hmem : ∀ x ∈ j :: K, x < es.length)
    (hi : i < es.length) (hiK : i ∉ j :: K) :
    Ring (insertD es i j) (j :: i :: K) := by
  have hjb := ring_succ_mem es (j :: K) hRing j (by simp)
  have hb0head : nextE es j = (K ++ [j]).headD 0 := (ring_head_link es j K hRing).1
  have hij : i ≠ j := fun e => hiK (by simp [e])
  have hb0i : nextE es j ≠ i := fun e => hiK (e ▸ hjb.2)
  have hjlen : j < es.length := hmem j (by simp)
  have hb0len : nextE es j < es.length := hmem _ hjb.2
  have hnext : ∀ x, nextE (insertD es i j) x
      = if x = i then nextE es j else if x = j then i else nextE es x := by
    intro x
    simp only [insertD]
    rw [nextE_setPrevE, nextE_setNextE, nextE_setPrevE, nextE_setNextE]
    simp only [length_setPrevE, length_setNextE]
    split_ifs with h1 h2 h3 h4 h5 <;> first | rfl | (exfalso; tauto)
  have hprev : ∀ x, prevE (insertD es i j) x
      = if x = i then j else if x = nextE es j then i else prevE es x := by
    intro x
    simp only [insertD]
    rw [prevE_setPrevE, prevE_setNextE, prevE_setPrevE, prevE_setNextE]
    simp only [length_setPrevE, length_setNextE]
    split_ifs with h1 h2 h3 h4 h5 <;> first | rfl | (exfalso; tauto)
  have houter : Link (insertD es i j) j i := by
    constructor
    · rw [hnext, if_neg (Ne.symm hij), if_pos rfl]
    · rw [hprev, if_pos rfl]
  show List.Chain' (Link (insertD es i j)) ((j :: i :: K) ++ [j])
  cases K with
  | nil =>
    have hb0j : nextE es j = j := by simpa using hb0head
    refine List.Chain'.cons houter ?_
    refine List.Chain'.cons ?_ (List.chain'_singleton j)
    constructor
    · rw [hnext, if_pos rfl, hb0j]
    · rw [hprev, if_neg (Ne.symm hij), hb0j, if_pos rfl]
  | cons k0 K2 =>
    have hb0k : nextE es j = k0 := by simpa using hb0head
    have hk0K : k0 ∈ j :: k0 :: K2 := by simp
    have hjK : j ∉ k0 :: K2 := (List.nodup_cons.mp hnd).1
    have hchain0 : List.Chain' (Link es) ((j :: k0 :: K2) ++ [j]) := hRing
    have hchainrest : List.Chain' (Link es) ((k0 :: K2) ++ [j]) :=
      (by simpa using hchain0 : List.Chain' (Link es) (j :: ((k0 :: K2) ++ [j]))).tail
    have hsplit := List.chain'_append.mp hchainrest
    have htransK : List.Chain' (Link (insertD es i j)) (k0 :: K2) := by
      apply chain_transfer hsplit.1
      intro x hx y hy hxy
      have hxi : x ≠ i := fun e => hiK (e ▸ List.mem_cons_of_mem j hx)
      have hxj : x ≠ j := fun e => hjK (e ▸ hx)
      have hyi : y ≠ i := fun e => hiK (e ▸ List.mem_cons_of_mem j hy)
      have hyb : y ≠ nextE es j := by
        intro e
        apply hjK
        have : x = j := by rw [← hxy.2, e, hjb.1.2]
        exact this ▸ hx
      constructor
      · rw [hnext, if_neg hxi, if_neg hxj, hxy.1]
      · rw [hprev, if_neg hyi, if_neg hyb, hxy.2]
    have hjunction : ∀ x ∈ (k0 :: K2).getLast?, ∀ y ∈ [j].head?,
        Link (insertD es i j) x y := by
      intro x hxl' y hy'
      rw [List.getLast?_eq_getLast _ (by simp)] at hxl'
      simp only [Option.mem_def, Option.some_inj] at hxl'
      simp only [List.head?_cons, Option.mem_def, Option.some_inj] at hy'
      subst hxl'
      subst hy'
      have hold : Link es ((k0 :: K2).getLast (by simp)) j := by
        apply hsplit.2.2
        · exact List.getLast?_eq_getLast _ (by simp)
        · simp
      have hxi : (k0 :: K2).getLast (by simp) ≠ i :=
        fun e => hiK (e ▸ List.mem_cons_of_mem j (List.getLast_mem _))
      have hxj : (k0 :: K2).getLast (by simp) ≠ j :=
        fun e => hjK (e ▸ List.getLast_mem _)
      constructor
      · rw [hnext, if_neg hxi, if_neg hxj, hold.1]
      · rw [hprev, if_neg (Ne.symm hij), if_neg ?_, hold.2]
        rw [hb0k]
        intro e
        exact hjK (e ▸ (by simp : k0 ∈ k0 :: K2))
    refine List.Chain'.cons houter ?_
    refine List.Chain'.cons ?_ ?_
    · constructor
      · rw [hnext, if_pos rfl, hb0k]
      · rw [hprev, if_neg ?_, hb0k, if_pos rfl]
        intro e
        exact hiK (e ▸ hk0K)
    · show List.Chain' (Link (insertD es i j)) ((k0 :: K2) ++ [j])
      rw [List.chain'_append]
      exact ⟨htransK, List.chain'_singleton j, hjunction⟩

theorem seek_mem (es : List DEntry) (L : List Nat) (hL : Ring es L)
    (i : Nat) (amount : Int) (pr : Bool) (j : Nat) (hiL : i ∈ L)
    (hsome : seekD es i amount pr = some j) : j ∈ L := by
  cases pr <;>
  · simp only [seekD, Bool.false_eq_true, if_true, if_false] at hsome
    split_ifs at hsome with h1 h2 h3
    · exact (Option.some_inj.mp hsome) ▸ walkNext_mem es L hL _ i hiL
    · exact (Option.some_inj.mp hsome) ▸ walkPrev_mem es L hL _ i hiL
    · exact (Option.some_inj.mp hsome) ▸ hiL

theorem moveOne_wf (es : List DEntry) (i : Nat) (h2 : 2 ≤ es.length)
    (hwf : WF es) (hi : i < es.length) :
    ∃ es2, moveOneD es i = some es2 ∧ es2.length = es.length ∧
      es2.map DEntry.value = es.map DEntry.value ∧ WF es2 := by
  obtain ⟨L, hperm, hring⟩ := hwf
  have hiL : i ∈ L := hperm.mem_iff.mpr (List.mem_range.mpr hi)
  have hm0 : ¬(es.length - 1 = 0) := by omega
  obtain ⟨j, hj⟩ : ∃ j, seekD es i (valueE es i) true = some j := by
    simp only [seekD, if_true]
    rw [if_neg hm0]
    split_ifs <;> exact ⟨_, rfl⟩
  have hjL : j ∈ L := seek_mem es L hring i _ true j hiL hj
  have hstep : moveOneD es i
      = if j = i then some es else some (insertD (removeD es i) i j) := by
    rw [moveOneD, hj]
  rw [hstep]
  by_cases hji : j = i
  · rw [if_pos hji]
    exact ⟨es, rfl, rfl, rfl, ⟨L, hperm, hring⟩⟩
  · rw [if_neg hji]
    refine ⟨_, rfl, ?_, ?_, ?_⟩
    · rw [length_insertD, length_removeD]
    · rw [mapValue_insertD, mapValue_removeD]
    · obtain ⟨P, Q, rfl⟩ := List.append_of_mem hiL
      have hrot : Ring es (i :: (Q ++ P)) := ring_rot_front es i P Q hring
      have hpermrot : List.Perm (i :: (Q ++ P)) (P ++ i :: Q) :=
        (List.Perm.cons i List.perm_append_comm).trans List.perm_middle.symm
      have htotal : List.Perm (i :: (Q ++ P)) (List.range es.length) :=
        hpermrot.trans hperm
      have hndrot : (i :: (Q ++ P)).Nodup :=
        htotal.nodup_iff.mpr (List.nodup_range _)
      have hmemrot : ∀ x ∈ i :: (Q ++ P), x < es.length := fun x hx =>
        List.mem_range.mp (htotal.mem_iff.mp hx)
      have hKne : (Q ++ P) ≠ [] := by
        intro e
        have hle := htotal.length_eq
        rw [e] at hle
        simp at hle
        omega
      have hrem := ring_remove es i (Q ++ P) hrot hndrot hmemrot hKne
      have hjQP : j ∈ Q ++ P := by
        have hj2 : j ∈ i :: (Q ++ P) := hpermrot.mem_iff.mpr hjL
        rcases List.mem_cons.mp hj2 with e | hmem2
        · exact absurd e hji
        · exact hmem2
      obtain ⟨P2, Q2, hK2⟩ := List.append_of_mem hjQP
      rw [hK2] at hrem
      have hrot2 : Ring (removeD es i) (j :: (Q2 ++ P2)) :=
        ring_rot_front _ j P2 Q2 hrem
      have hpermrot2 : List.Perm (j :: (Q2 ++ P2)) (P2 ++ j :: Q2) :=
        (List.Perm.cons j List.perm_append_comm).trans List.perm_middle.symm
      have hpermK : List.Perm (j :: (Q2 ++ P2)) (Q ++ P) := by
        rw [hK2]
        exact hpermrot2
      have hndQP : (Q ++ P).Nodup := (List.nodup_cons.mp hndrot).2
      have hnd2 : (j :: (Q2 ++ P2)).Nodup := hpermK.nodup_iff.mpr hndQP
      have hmem2 : ∀ x ∈ j :: (Q2 ++ P2), x < (removeD es i).length := by
        intro x hx
        rw [length_removeD]
        exact hmemrot x (List.mem_cons_of_mem i (hpermK.mem_iff.mp hx))
      have hi2 : i < (removeD es i).length := by
        rw [length_removeD]
        exact hi
      have hiK2 : i ∉ j :: (Q2 ++ P2) := by
        intro hmem3
        rcases List.mem_cons.mp hmem3 with e | hmem4
        · exact hji e.symm
        · exact (List.nodup_cons.mp hndrot).1
            ((hpermK.mem_iff.mp (List.mem_cons_of_mem j hmem4)))
      have hins := ring_insert (removeD es i) i j (Q2 ++ P2) hrot2 hnd2
        hmem2 hi2 hiK2
      refine ⟨j :: i :: (Q2 ++ P2), ?_, hins⟩
      rw [length_insertD, length_removeD]
      exact ((List.Perm.swap i j _).trans
        (List.Perm.cons i hpermK)).trans htotal

theorem mixFrom_wf (idxs : List Nat) :
    ∀ es : List DEntry, 2 ≤ es.length → WF es →
    (∀ i ∈ idxs, i < es.length) →
    ∃ es2, mixFrom idxs es = some es2 ∧ es2.length = es.length ∧
      es2.map DEntry.value = es.map DEntry.value ∧ WF es2 := by
  induction idxs with
  | nil =>
    intro es _ hwf _
    exact ⟨es, rfl, rfl, rfl, hwf⟩
  | cons i rest ih =>
    intro es h2 hwf hidx
    obtain ⟨es1, hm, hlen, hval, hwf1⟩ :=
      moveOne_wf es i h2 hwf (hidx i (by simp))
    obtain ⟨es2, hm2, hlen2, hval2, hwf2⟩ := ih es1 (by omega) hwf1
      (fun x hx => hlen ▸ hidx x (List.mem_cons_of_mem i hx))
    refine ⟨es2, ?_, by omega, hval2.trans hval, hwf2⟩
    have hstep : mixFrom (i :: rest) es = mixFrom rest es1 := by
      rw [mixFrom, hm]
    rw [hstep, hm2]

/-- Executable check that consecutive elements of a list are linked. -/
def linksBool (es : List DEntry) : List Nat → Bool
| [] => true
| [_] => true
| a :: b :: t =>
  (decide (nextE es a = b) && decide (prevE es b = a)) && linksBool es (b :: t)

theorem linksBool_chain (es : List DEntry) :
    ∀ K, linksBool es K = true → List.Chain' (Link es) K := by
  intro K
  induction K with
  | nil => intro _; exact List.chain'_nil
  | cons a t ih =>
    cases t with
    | nil => intro _; exact List.chain'_singleton a
    | cons b t2 =>
      intro h
      simp only [linksBool, Bool.and_eq_true, decide_eq_true_eq] at h
      exact List.chain'_cons.mpr ⟨⟨h.1.1, h.1.2⟩, ih h.2⟩

theorem ring_of_bool (es : List DEntry) (L : List Nat)
    (h : linksBool es (L ++ [L.headD 0]) = true) : Ring es L :=
  linksBool_chain es _ h

end Day20

/-- Claim C8 as amended (for lists of at least two entries): a mix() call on
a well-formed circular doubly linked list succeeds and preserves the
structural invariant and the contents: the length is unchanged, the stored
values are unchanged entry by entry, the pointers stay mutually inverse
(entries[entries[i].next].prev = i and entries[entries[i].prev].next = i),
and all entries still form one cycle reachable from index 0. -/
theorem claim8_mix_preserves_invariants (es : List Day20.DEntry)
    (h2 : 2 ≤ es.length) (hwf : Day20.WF es) :
    ∃ es2, Day20.mixD es = some es2 ∧
      es2.length = es.length ∧
      es2.map Day20.DEntry.value = es.map Day20.DEntry.value ∧
      Day20.WF es2 ∧
      (∀ i, i < es2.length →
        Day20.prevE es2 (Day20.nextE es2 i) = i ∧
        Day20.nextE es2 (Day20.prevE es2 i) = i) ∧
      (∀ i, i < es2.length →
        ∃ k, k < es2.length ∧ (Day20.nextE es2)^[k] 0 = i) := by
  obtain ⟨es2, hm, hlen, hval, hwf2⟩ :=
    Day20.mixFrom_wf (List.range es.length) es h2 hwf
      (fun i hi => List.mem_range.mp hi)
  obtain ⟨L, hperm, hring⟩ := hwf2
  refine ⟨es2, hm, hlen, hval, ⟨L, hperm, hring⟩, ?_, ?_⟩
  · intro i hi
    have hiL : i ∈ L := hperm.mem_iff.mpr (List.mem_range.mpr hi)
    exact ⟨Day20.ring_next_prev es2 L hring i hiL,
      Day20.ring_prev_next es2 L hring i hiL⟩
  · intro i hi
    have h0L : 0 ∈ L := hperm.mem_iff.mpr (List.mem_range.mpr (by omega))
    have hiL : i ∈ L := hperm.mem_iff.mpr (List.mem_range.mpr hi)
    obtain ⟨k, hk, hk2⟩ := Day20.ring_reach es2 L hring h0L i hiL
    refine ⟨k, ?_, hk2⟩
    have := hperm.length_eq
    rw [List.length_range] at this
    omega

/-- Witness for claim C8: the amended theorem applied to the list parsed
from the day20 example input 1,2,-3,3,-2,0,4, whose initial ring is the
identity enumeration 0..6. -/
theorem claim8_witness :
    2 ≤ (Day20.buildEntries [1, 2, -3, 3, -2, 0, 4]).length ∧
    ∃ es2, Day20.mixD (Day20.buildEntries [1, 2, -3, 3, -2, 0, 4]) = some es2 ∧
      es2.length = (Day20.buildEntries [1, 2, -3, 3, -2, 0, 4]).length ∧
      es2.map Day20.DEntry.value
        = (Day20.buildEntries [1, 2, -3, 3, -2, 0, 4]).map Day20.DEntry.value ∧
      Day20.WF es2 ∧
      (∀ i, i < es2.length →
        Day20.prevE es2 (Day20.nextE es2 i) = i ∧
        Day20.nextE es2 (Day20.prevE es2 i) = i) ∧
      (∀ i, i < es2.length →
        ∃ k, k < es2.length ∧ (Day20.nextE es2)^[k] 0 = i) :=
  ⟨by decide,
   claim8_mix_preserves_invariants _ (by decide)
     ⟨[0, 1, 2, 3, 4, 5, 6], by decide, Day20.ring_of_bool _ _ (by decide)⟩⟩

/-- Claim C8, counterexample: the input "0\n" parses to a valid singleton
list (exactly one zero, trivially circular), but mix() on it panics: seek
computes `amount % (len - 1)` with len = 1, a remainder by zero. The claim
that every mix() call on a parsed list preserves the invariant is therefore
false at this input. -/
theorem claim8_mix_singleton_panics :
    Day20.listFromStr "0\n" = some ⟨0, [⟨0, 0, 0⟩]⟩ ∧
    Day20.mixD [⟨0, 0, 0⟩] = none := by decide

namespace Day21

/-- The four monkey operations from day21.rs. -/
inductive Operation
| add
| sub
| mul
| div
deriving DecidableEq

/-- Modulus of u64 arithmetic. -/
def U64 : Nat := 2 ^ 64

/-- Wrapping u64 addition. -/
def add64 (a b : Nat) : Nat := (a + b) % U64

/-- Wrapping u64 subtraction. -/
def sub64 (a b : Nat) : Nat := (a + (U64 - b % U64)) % U64

/-- Wrapping u64 multiplication. -/
def mul64 (a b : Nat) : Nat := (a * b) % U64

/-- Monkey from day21.rs: a constant or a named binary operation. -/
inductive Monkey
| const (v : Nat)
| op (a b : String) (o : Operation)
deriving DecidableEq

/-- Application of one operation with u64 semantics: division by zero is a
Rust panic, modelled as `none` (u64 division otherwise truncates, like Nat
division). -/
def applyOp : Operation → Nat → Nat → Option Nat
| .add, a, b => some (add64 a b)
| .sub, a, b => some (sub64 a b)
| .mul, a, b => some (mul64 a b)
| .div, a, b => if b = 0 then none else some (a / b)

/-- MonkeyContext::get_value from day21.rs with the mutable value_cache made
explicit: look in the cache first, otherwise look the monkey up, evaluate
its operands left to right threading the cache, and record the result.
Fuel bounds the recursion (the Rust code overflows the stack on cyclic
input). -/
def getValueM (m : List (String × Monkey)) :
    Nat → List (String × Nat) → String → Option (Nat × List (String × Nat))
| 0, _, _ => none
| fuel + 1, c, w =>
  match List.lookup w c with
  | some v => some (v, c)
  | none =>
    match List.lookup w m with
    | none => none
    | some (.const v) => some (v, (w, v) :: c)
    | some (.op a b o) =>
      match getValueM m fuel c a with
      | none => none
      | some (va, c1) =>
        match getValueM m fuel c1 b with
        | none => none
        | some (vb, c2) =>
          match applyOp o va vb with
          | none => none
          | some v => some (v, (w, v) :: c2)

/-- Cache-free reference evaluation of a monkey name. -/
def evalRef (m : List (String × Monkey)) : Nat → String → Option Nat
| 0, _ => none
| fuel + 1, w =>
  match List.lookup w m with
  | none => none
  | some (.const v) => some v
  | some (.op a b o) =>
    match evalRef m fuel a, evalRef m fuel b with
    | some va, some vb => applyOp o va vb
    | _, _ => none

/-- Sound m c: every cache entry agrees with the reference evaluation. -/
def Sound (m : List (String × Monkey)) (c : List (String × Nat)) : Prop :=
∀ p ∈ c, ∃ f, evalRef m f p.1 = some p.2

theorem lookup_mem {α : Type} [DecidableEq α] {β : Type}
    {l : List (α × β)} {k : α} {v : β}
    (h : List.lookup k l = some v) : (k, v) ∈ l := by
  induction l with
  | nil => simp [List.lookup] at h
  | cons p t ih =>
    obtain ⟨k2, v2⟩ := p
    rw [List.lookup] at h
    by_cases he : k = k2
    · subst he
      simp only [beq_self_eq_true, Option.some_inj] at h
      subst h
      simp
    · have hbe : (k == k2) = false := by
        simp [he]
      rw [hbe] at h
      exact List.mem_cons_of_mem _ (ih h)

theorem evalRef_mono (m : List (String × Monkey)) :
    ∀ f g w v, f ≤ g → evalRef m f w = some v → evalRef m g w = some v := by
  intro f
  induction f with
  | zero =>
    intro g w v _ h
    simp [evalRef] at h
  | succ f2 ih =>
    intro g w v hle h
    obtain ⟨g2, rfl⟩ : ∃ g2, g = g2 + 1 := by
      cases g with
      | zero => omega
      | succ g2 => exact ⟨g2, rfl⟩
    rw [evalRef] at h ⊢
    match hm : List.lookup w m with
    | none =>
      rw [hm] at h
      have h2 : (none : Option Nat) = some v := h
      exact absurd h2 (by simp)
    | some (.const v0) =>
      rw [hm] at h
      exact h
    | some (.op a b o) =>
      rw [hm] at h
      have h2 : (match evalRef m f2 a, evalRef m f2 b with
          | some va, some vb => applyOp o va vb
          | _, _ => none) = some v := h
      show (match evalRef m g2 a, evalRef m g2 b with
          | some va, some vb => applyOp o va vb
          | _, _ => none) = some v
      match ha : evalRef m f2 a, hb : evalRef m f2 b with
      | some va, some vb =>
        rw [ha, hb] at h2
        rw [ih g2 a va (by omega) ha, ih g2 b vb (by omega) hb]
        exact h2
      | none, hv2 =>
        rw [ha] at h2
        have h4 : (none : Option Nat) = some v := h2
        exact absurd h4 (by simp)
      | some va, none =>
        rw [ha, hb] at h2
        have h4 : (none : Option Nat) = some v := h2
        exact absurd h4 (by simp)

theorem getValueM_sound (m : List (String × Monkey)) :
    ∀ fuel c w v c2, Sound m c → getValueM m fuel c w = some (v, c2) →
      (∃ f, evalRef m f w = some v) ∧ Sound m c2 := by
  intro fuel
  induction fuel with
  | zero =>
    intro c w v c2 _ h
    simp [getValueM] at h
  | succ f2 ih =>
    intro c w v c2 hs h
    rw [getValueM] at h
    match hc : List.lookup w c with
    | some v0 =>
      rw [hc] at h
      have h3 : (some (v0, c) : Option (Nat × List (String × Nat)))
          = some (v, c2) := h
      simp only [Option.some_inj, Prod.mk.injEq] at h3
      obtain ⟨rfl, rfl⟩ := h3
      exact ⟨hs _ (lookup_mem hc), hs⟩
    | none =>
      rw [hc] at h
      match hm : List.lookup w m with
      | none =>
        rw [hm] at h
        have h3 : (none : Option (Nat × List (String × Nat)))
            = some (v, c2) := h
        exact absurd h3 (by simp)
      | some (.const v0) =>
        rw [hm] at h
        have h3 : (some (v0, (w, v0) :: c) : Option (Nat × List (String × Nat)))
            = some (v, c2) := h
        simp only [Option.some_inj, Prod.mk.injEq] at h3
        obtain ⟨rfl, rfl⟩ := h3
        refine ⟨⟨1, ?_⟩, ?_⟩
        · rw [evalRef, hm]
        · intro p hp
          rcases List.mem_cons.mp hp with rfl | hp2
          · exact ⟨1, by rw [evalRef, hm]⟩
          · exact hs p hp2
      | some (.op a b o) =>
        rw [hm] at h
        have hx : (match getValueM m f2 c a with
            | none => none
            | some (va, c1) =>
              match getValueM m f2 c1 b with
              | none => none
              | some (vb, c2y) =>
                match applyOp o va vb with
                | none => none
                | some v1 => some (v1, (w, v1) :: c2y)) = some (v, c2) := h
        match h1 : getValueM m f2 c a with
        | none =>
          rw [h1] at hx
          have h3 : (none : Option (Nat × List (String × Nat)))
              = some (v, c2) := hx
          exact absurd h3 (by simp)
        | some (va, c1) =>
          rw [h1] at hx
          have hx2 : (match getValueM m f2 c1 b with
              | none => none
              | some (vb, c2y) =>
                match applyOp o va vb with
                | none => none
                | some v1 => some (v1, (w, v1) :: c2y)) = some (v, c2) := hx
          match h2 : getValueM m f2 c1 b with
          | none =>
            rw [h2] at hx2
            have h3 : (none : Option (Nat × List (String × Nat)))
                = some (v, c2) := hx2
            exact absurd h3 (by simp)
          | some (vb, c2x) =>
            rw [h2] at hx2
            have hx3 : (match applyOp o va vb with
                | none => none
                | some v1 => some (v1, (w, v1) :: c2x)) = some (v, c2) := hx2
            match hop : applyOp o va vb with
            | none =>
              rw [hop] at hx3
              have h3 : (none : Option (Nat × List (String × Nat)))
                  = some (v, c2) := hx3
              exact absurd h3 (by simp)
            | some v0 =>
              rw [hop] at hx3
              have h3 : (some (v0, (w, v0) :: c2x)
                  : Option (Nat × List (String × Nat))) = some (v, c2) := hx3
              simp only [Option.some_inj, Prod.mk.injEq] at h3
              obtain ⟨rfl, rfl⟩ := h3
              obtain ⟨⟨fa, hfa⟩, hsc1⟩ := ih c a va c1 hs h1
              obtain ⟨⟨fb, hfb⟩, hsc2⟩ := ih c1 b vb c2x hsc1 h2
              have hev : evalRef m (max fa fb + 1) w = some v0 := by
                rw [evalRef, hm]
                show (match evalRef m (max fa fb) a,
                      evalRef m (max fa fb) b with
                    | some x, some y => applyOp o x y
                    | _, _ => none) = some v0
                rw [evalRef_mono m fa _ a va (Nat.le_max_left _ _) hfa,
                  evalRef_mono m fb _ b vb (Nat.le_max_right _ _) hfb]
                exact hop
              refine ⟨⟨max fa fb + 1, hev⟩, ?_⟩
              intro p hp
              rcases List.mem_cons.mp hp with rfl | hp2
              · exact ⟨max fa fb + 1, hev⟩
              · exact hsc2 p hp2

end Day21

/-- Claim C7 as amended: day 21's get_value is a deterministic pure
function of its input: any two runs of the cached evaluator on the same
monkey map, from any two sound cache states (in particular the empty caches
of two separate executions, whatever the HashMap's internal order), return
the same value. The universal claim over every program is false: day15's
part2 depends on HashSet iteration order (see the counterexample). -/
theorem claim7_day21_deterministic (m : List (String × Day21.Monkey))
    (fuel1 fuel2 : Nat) (c1 c2 : List (String × Nat)) (w : String)
    (v1 v2 : Nat) (c1r c2r : List (String × Nat))
    (hs1 : Day21.Sound m c1) (hs2 : Day21.Sound m c2)
    (h1 : Day21.getValueM m fuel1 c1 w = some (v1, c1r))
    (h2 : Day21.getValueM m fuel2 c2 w = some (v2, c2r)) : v1 = v2 := by
  obtain ⟨⟨f1, hf1⟩, -⟩ := Day21.getValueM_sound m fuel1 c1 w v1 c1r hs1 h1
  obtain ⟨⟨f2, hf2⟩, -⟩ := Day21.getValueM_sound m fuel2 c2 w v2 c2r hs2 h2
  have e1 := Day21.evalRef_mono m f1 (max f1 f2) w v1 (Nat.le_max_left _ _) hf1
  have e2 := Day21.evalRef_mono m f2 (max f1 f2) w v2 (Nat.le_max_right _ _) hf2
  rw [e1] at e2
  exact Option.some_inj.mp e2

/-- Witness for claim C7: two runs on the monkey map root = a + b, a = 3,
b = 4, one from an empty cache and one from a pre-seeded sound cache, both
return 7. -/
theorem claim7_witness :
    Day21.getValueM [("root", Day21.Monkey.op "a" "b" Day21.Operation.add),
        ("a", Day21.Monkey.const 3), ("b", Day21.Monkey.const 4)] 3 [] "root"
      = some (7, [("root", 7), ("b", 4), ("a", 3)]) ∧
    Day21.getValueM [("root", Day21.Monkey.op "a" "b" Day21.Operation.add),
        ("a", Day21.Monkey.const 3), ("b", Day21.Monkey.const 4)] 3
        [("a", 3)] "root"
      = some (7, [("root", 7), ("b", 4), ("a", 3)]) ∧
    (7 : Nat) = 7 := by
  refine ⟨by decide, by decide, ?_⟩
  exact claim7_day21_deterministic
    [("root", Day21.Monkey.op "a" "b" Day21.Operation.add),
     ("a", Day21.Monkey.const 3), ("b", Day21.Monkey.const 4)]
    3 3 [] [("a", 3)] "root" 7 7
    [("root", 7), ("b", 4), ("a", 3)] [("root", 7), ("b", 4), ("a", 3)]
    (fun p hp => absurd hp (by simp))
    (fun p hp => by
      have he : p = ("a", 3) := by simpa using hp
      subst he
      exact ⟨1, by decide⟩)
    (by decide) (by decide)

namespace Day15

/-- Position from day15.rs. -/
structure Position where
  x : Int
  y : Int
  deriving DecidableEq

/-- Position::distance from day15.rs: abs_diff in x plus abs_diff in y (a
u64). -/
def Position.distanceP (a b : Position) : Nat :=
  (a.x - b.x).natAbs + (a.y - b.y).natAbs

/-- Position::in_bounds from day15.rs. -/
def Position.inBounds (p : Position) (bounds : Nat) : Bool :=
  decide (0 ≤ p.x) && decide (p.x ≤ (bounds : Int)) &&
    decide (0 ≤ p.y) && decide (p.y ≤ (bounds : Int))

/-- Sensor from day15.rs. -/
structure Sensor where
  position : Position
  distance : Nat
  deriving DecidableEq

/-- Sensor::from_str from day15.rs, after the regex has extracted the four
integers: the sensor position plus the manhattan distance to its beacon. -/
def mkSensor (px py qx qy : Int) : Sensor :=
  ⟨⟨px, py⟩, Position.distanceP ⟨px, py⟩ ⟨qx, qy⟩⟩

/-- Sensor::line_coefficients from day15.rs: the a-coefficients (y = x + a)
and b-coefficients (y = -x + b) of the four lines just outside the
detection box. -/
def Sensor.lineCoefficients (s : Sensor) : List Int × List Int :=
  ([s.position.y - s.position.x + (s.distance : Int) + 1,
    s.position.y - s.position.x - (s.distance : Int) - 1],
   [s.position.y + s.position.x + (s.distance : Int) + 1,
    s.position.y + s.position.x - (s.distance : Int) - 1])

/-- The body of part2's nested loop in day15.rs for one candidate pair
(a, b): the intersection of y = x + a and y = -x + b (i64 division
truncates, hence Int.tdiv); `none` when it is skipped (out of bounds or
covered by some sensor), and the part-2 answer when it is returned. -/
def tryCandidate (sensors : List Sensor) (bounds : Nat) (a b : Int) :
    Option Int :=
  let intersection : Position := ⟨(b - a).tdiv 2, (b + a).tdiv 2⟩
  if ¬ intersection.inBounds bounds then none
  else if sensors.all
      (fun s => s.distance < Position.distanceP s.position intersection)
  then some (4000000 * intersection.x + intersection.y)
  else none

/-- The nested loop of part2 from day15.rs: the a-coefficients and
b-coefficients live in std HashSets, so the loop visits them in an
unspecified, randomly seeded order; the function is therefore modeled as
taking the two enumeration orders explicitly and returns the first
candidate that is in bounds and uncovered by every sensor. -/
def part2Scan (sensors : List Sensor) (bounds : Nat)
    (aOrder bOrder : List Int) : Option Int :=
  (aOrder.flatMap fun a => bOrder.map fun b => (a, b)).findSome?
    fun p => tryCandidate sensors bounds p.1 p.2

/-- The a-coefficients (resp. b-coefficients) inserted into the HashSets of
part2, as a list with duplicates removed. -/
def aCoeffList (sensors : List Sensor) : List Int :=
  (sensors.flatMap fun s => s.lineCoefficients.1).dedup

def bCoeffList (sensors : List Sensor) : List Int :=
  (sensors.flatMap fun s => s.lineCoefficients.2).dedup

end Day15

/-- Claim C7, counterexample: not every per-part computation is a
deterministic pure function of the input text. day15's part2 iterates two
std HashSets of candidate line coefficients (randomly seeded per process)
and returns the first in-bounds intersection uncovered by every sensor; on
the parseable two-sensor input "Sensor at x=2, y=2: closest beacon is at
x=2, y=3" / "Sensor at x=15, y=15: closest beacon is at x=15, y=16" with
bounds 20 there are several valid candidates, and two enumeration orders of
the same coefficient sets return 8000004 and 8000000 respectively. -/
theorem claim7_day15_order_dependent :
    ([2, -2] : List Int).Perm
      (Day15.aCoeffList [Day15.mkSensor 2 2 2 3, Day15.mkSensor 15 15 15 16]) ∧
    ([-2, 2] : List Int).Perm
      (Day15.aCoeffList [Day15.mkSensor 2 2 2 3, Day15.mkSensor 15 15 15 16]) ∧
    ([6, 2, 32, 28] : List Int).Perm
      (Day15.bCoeffList [Day15.mkSensor 2 2 2 3, Day15.mkSensor 15 15 15 16]) ∧
    ([2, 6, 32, 28] : List Int).Perm
      (Day15.bCoeffList [Day15.mkSensor 2 2 2 3, Day15.mkSensor 15 15 15 16]) ∧
    Day15.part2Scan [Day15.mkSensor 2 2 2 3, Day15.mkSensor 15 15 15 16] 20
      [2, -2] [6, 2, 32, 28] = some 8000004 ∧
    Day15.part2Scan [Day15.mkSensor 2 2 2 3, Day15.mkSensor 15 15 15 16] 20
      [-2, 2] [2, 6, 32, 28] = some 8000000 ∧
    (8000004 : Int) ≠ 8000000 := by
  refine ⟨by decide, by decide, by decide, by decide, by decide, by decide,
    by decide⟩

/-- Split a character list at a separator character, keeping empty
segments (Rust str::split semantics). -/
def splitChar (sep : Char) : List Char → List Char → List (List Char)
| cur, [] => [cur.reverse]
| cur, c :: cs =>
  if c = sep then cur.reverse :: splitChar sep [] cs
  else splitChar sep (c :: cur) cs

namespace Day10

/-- Instruction from day10.rs. -/
inductive Inst
| noop
| addx (v : Int)
deriving DecidableEq

/-- Instruction::parse from day10.rs: split the line on spaces; a first
word "noop" is Noop whatever follows, exactly ["addx", v] parses v as an
i64, and anything else is a fatal parse error. -/
def parseInst (line : String) : Option Inst :=
match (splitChar ' ' [] line.data).map String.mk with
| "noop" :: _ => some .noop
| [_, v] =>
  match (splitChar ' ' [] line.data).map String.mk with
  | w :: _ => if w = "addx" then (parseI64 v).map Inst.addx else none
  | _ => none
| _ => none

/-- simulate_machine from day10.rs: x starts at 1; every instruction first
emits x once per cycle it takes (noop 1, addx 2), then addx adds its
operand to x. -/
def simMachine (input : String) : Option (List Int) :=
((rustLines input).foldlM
  (fun st line =>
    match parseInst line with
    | none => none
    | some .noop => some (st.1, st.2 ++ [st.1])
    | some (.addx v) => some (st.1 + v, st.2 ++ [st.1, st.1]))
  ((1 : Int), ([] : List Int))).map Prod.snd

/-- part1 from day10.rs: sum of x_values[i] * (1 + i) over the six sample
indices (indexing out of range is a panic, hence `none`). -/
def part1 (input : String) : Option Int :=
(simMachine input).bind fun xs =>
  ([19, 59, 99, 139, 179, 219] : List Nat).foldlM
    (fun (acc : Int) (i : Nat) =>
      (xs[i]?).map fun x => acc + x * (1 + (i : Int)))
    (0 : Int)

/-- part2 from day10.rs: the 40x6 CRT image, row by row, a '#' where the
sprite covers the column, with a newline after every row. -/
def part2 (input : String) : Option (List Char) :=
(simMachine input).bind fun xs =>
  (List.range 6).foldlM
    (fun (acc : List Char) (y : Nat) =>
      ((List.range 40).foldlM
        (fun (acc2 : List Char) (col : Nat) =>
          (xs[col + y * 40]?).map fun xv =>
            acc2 ++ [if ((col : Int) - xv).natAbs ≤ 1 then '#' else '.'])
        acc).map fun acc3 => acc3 ++ ['\n'])
    ([] : List Char)

/-- Standard output of day10's main: println!("Part 1: {}", ..) then
println!("Part 2:\n{}", ..), as the character stream written. -/
def mainOut (input : String) : Option (List Char) :=
(part1 input).bind fun p1 =>
  (part2 input).map fun p2 =>
    ("Part 1: ".data ++ (toString p1).data ++ ['\n'])
      ++ ("Part 2:".data ++ ['\n'] ++ p2 ++ ['\n'])

/-- An input of 240 noop lines: a well-formed day10 input that exercises
all 240 CRT cycles. -/
def noops240 : String :=
String.mk ((List.replicate 240 ['n', 'o', 'o', 'p', '\n']).flatten)

end Day10

namespace Day02

/-- Standard output of day02's main: two println! calls. -/
def mainOut (input : String) : List Char :=
("Part 1: ".data ++ (toString (calculate_part input part1_round_score)).data
  ++ ['\n'])
  ++ ("Part 2: ".data
    ++ (toString (calculate_part input part2_round_score)).data ++ ['\n'])

end Day02

theorem digitChar_ne_newline (d : Nat) : Nat.digitChar d ≠ '\n' := by
  by_cases h : d < 16
  · interval_cases d <;> decide
  · unfold Nat.digitChar
    rw [if_neg (by omega : ¬ d = 0), if_neg (by omega : ¬ d = 1),
      if_neg (by omega : ¬ d = 2), if_neg (by omega : ¬ d = 3),
      if_neg (by omega : ¬ d = 4), if_neg (by omega : ¬ d = 5),
      if_neg (by omega : ¬ d = 6), if_neg (by omega : ¬ d = 7),
      if_neg (by omega : ¬ d = 8), if_neg (by omega : ¬ d = 9),
      if_neg (by omega : ¬ d = 10), if_neg (by omega : ¬ d = 11),
      if_neg (by omega : ¬ d = 12), if_neg (by omega : ¬ d = 13),
      if_neg (by omega : ¬ d = 14), if_neg (by omega : ¬ d = 15)]
    decide

theorem toDigitsCore_ne_newline (b : Nat) : ∀ (fuel n : Nat) (ds : List Char),
    (∀ c ∈ ds, c ≠ '\n') → ∀ c ∈ Nat.toDigitsCore b fuel n ds, c ≠ '\n' := by
  intro fuel
  induction fuel with
  | zero => intro n ds hds c hc; exact hds c hc
  | succ fuel ih =>
    intro n ds hds c hc
    have hc2 : c ∈ (if n / b = 0 then Nat.digitChar (n % b) :: ds
        else Nat.toDigitsCore b fuel (n / b) (Nat.digitChar (n % b) :: ds)) :=
      hc
    have hcons : ∀ c2 ∈ Nat.digitChar (n % b) :: ds, c2 ≠ '\n' := by
      intro c2 hc2m
      rcases List.mem_cons.mp hc2m with h1 | h1
      · subst h1; exact digitChar_ne_newline _
      · exact hds c2 h1
    split_ifs at hc2 with h
    · exact hcons c hc2
    · exact ih (n / b) _ hcons c hc2

theorem natRepr_ne_newline (n : Nat) : ∀ c ∈ (toString n).data, c ≠ '\n' :=
  fun c hc => toDigitsCore_ne_newline 10 (n + 1) n []
    (fun _ h => absurd h (List.not_mem_nil _)) c hc

theorem intRepr_ne_newline (i : Int) : ∀ c ∈ (toString i).data, c ≠ '\n' := by
  cases i with
  | ofNat m => exact natRepr_ne_newline m
  | negSucc m =>
    intro c hc
    have hc2 : c ∈ '-' :: (toString (m + 1)).data := hc
    rcases List.mem_cons.mp hc2 with h1 | h1
    · subst h1; decide
    · exact natRepr_ne_newline (m + 1) c h1

theorem linesCore_seg (l : List Char) (hl : '\n' ∉ l) :
    ∀ (rest acc : List Char),
      linesCore acc (l ++ '\n' :: rest) =
        (acc.reverse ++ l) :: linesCore [] rest := by
  induction l with
  | nil => intro rest acc; simp [linesCore]
  | cons x xs ih =>
    intro rest acc
    have hx : ¬ x = '\n' := fun he => hl (he ▸ List.mem_cons_self x xs)
    have hxs : '\n' ∉ xs := fun hm => hl (List.mem_cons_of_mem x hm)
    show linesCore acc (x :: (xs ++ '\n' :: rest)) = _
    rw [linesCore]
    rw [if_neg hx, ih hxs rest (x :: acc)]
    simp

theorem linesCore_flat (segs : List (List Char))
    (h : ∀ s ∈ segs, '\n' ∉ s) :
    linesCore [] ((segs.map (fun s => s ++ ['\n'])).flatten) = segs ++ [[]] := by
  induction segs with
  | nil => rfl
  | cons s rest ih =>
    have hs : '\n' ∉ s := h s (List.mem_cons_self s rest)
    have hrest : ∀ s2 ∈ rest, '\n' ∉ s2 :=
      fun s2 h2 => h s2 (List.mem_cons_of_mem s h2)
    have he : ((s :: rest).map (fun s0 => s0 ++ ['\n'])).flatten =
        s ++ '\n' :: (rest.map (fun s0 => s0 ++ ['\n'])).flatten := by
      simp
    rw [he, linesCore_seg s hs _ [], ih hrest]
    simp

theorem flat_getLast_newline (segs : List (List Char)) (hne : segs ≠ []) :
    ((segs.map (fun s => s ++ ['\n'])).flatten).getLast? = some '\n' := by
  induction segs with
  | nil => exact absurd rfl hne
  | cons s rest ih =>
    cases rest with
    | nil => simp
    | cons s2 rest2 =>
      have he : ((s :: s2 :: rest2).map (fun s0 => s0 ++ ['\n'])).flatten =
          (s ++ ['\n']) ++
            ((s2 :: rest2).map (fun s0 => s0 ++ ['\n'])).flatten := by
        simp
      rw [he, List.getLast?_append_of_ne_nil, ih (by simp)]
      intro hcontra
      have hlen := congrArg List.length hcontra
      simp at hlen

theorem rustLines_ne_nil_eq (s : String) (hne : s.data ≠ []) :
    rustLines s = (if s.data.getLast? = some '\n'
      then ((linesCore [] s.data).map String.mk).dropLast
      else (linesCore [] s.data).map String.mk) := by
  unfold rustLines
  cases hd : s.data with
  | nil => exact absurd hd hne
  | cons c cs => rfl

theorem rustLines_flat (segs : List (List Char))
    (h : ∀ s ∈ segs, '\n' ∉ s) (hne : segs ≠ []) :
    rustLines (String.mk ((segs.map (fun s => s ++ ['\n'])).flatten)) =
      segs.map String.mk := by
  have hdata : (String.mk ((segs.map (fun s => s ++ ['\n'])).flatten)).data =
      (segs.map (fun s => s ++ ['\n'])).flatten := rfl
  have hdne : (segs.map (fun s => s ++ ['\n'])).flatten ≠ [] := by
    intro hcontra
    cases segs with
    | nil => exact hne rfl
    | cons s rest =>
      have := congrArg List.length hcontra
      simp at this
  rw [rustLines_ne_nil_eq _ (by rw [hdata]; exact hdne), hdata,
    flat_getLast_newline segs hne, if_pos rfl, linesCore_flat segs h]
  simp

theorem mk_append (a b : String) : String.mk (a.data ++ b.data) = a ++ b := rfl

theorem day10_row_struct (xs : List Int) (y : Nat) : ∀ (n : Nat)
    (acc res : List Char),
    (List.range n).foldlM
      (fun (acc2 : List Char) (col : Nat) =>
        (xs[col + y * 40]?).map fun xv =>
          acc2 ++ [if ((col : Int) - xv).natAbs ≤ 1 then '#' else '.'])
      acc = some res →
    ∃ row, res = acc ++ row ∧ row.length = n ∧ ∀ c ∈ row, c ≠ '\n' := by
  intro n
  induction n with
  | zero =>
    intro acc res h
    have h2 : some acc = some res := h
    exact ⟨[], by rw [← Option.some_inj.mp h2]; simp, rfl,
      fun c hc => absurd hc (List.not_mem_nil c)⟩
  | succ n ih =>
    intro acc res h
    rw [List.range_succ, List.foldlM_append] at h
    cases hmid : (List.range n).foldlM
        (fun (acc2 : List Char) (col : Nat) =>
          (xs[col + y * 40]?).map fun xv =>
            acc2 ++ [if ((col : Int) - xv).natAbs ≤ 1 then '#' else '.'])
        acc with
    | none => rw [hmid] at h; exact absurd h (by simp)
    | some mid =>
      rw [hmid] at h
      have h2 : ((xs[n + y * 40]?).map fun xv =>
          mid ++ [if ((n : Int) - xv).natAbs ≤ 1 then '#' else '.'])
            >>= (fun b => some b) = some res := h
      cases hx : xs[n + y * 40]? with
      | none => rw [hx] at h2; exact absurd h2 (by simp)
      | some xv =>
        rw [hx] at h2
        have h3 : some (mid ++
            [if ((n : Int) - xv).natAbs ≤ 1 then '#' else '.']) = some res :=
          h2
        obtain ⟨row, hres, hlen, hnl⟩ := ih acc mid hmid
        refine ⟨row ++ [if ((n : Int) - xv).natAbs ≤ 1 then '#' else '.'],
          ?_, ?_, ?_⟩
        · rw [← Option.some_inj.mp h3, hres, List.append_assoc]
        · simp [hlen]
        · intro c hc
          rcases List.mem_append.mp hc with hc1 | hc1
          · exact hnl c hc1
          · have hc2 : c = if ((n : Int) - xv).natAbs ≤ 1 then '#' else '.' :=
              List.mem_singleton.mp hc1
            subst hc2
            split_ifs <;> decide

theorem day10_rows_struct (xs : List Int) : ∀ (n : Nat)
    (acc res : List Char),
    (List.range n).foldlM
      (fun (acc : List Char) (y : Nat) =>
        ((List.range 40).foldlM
          (fun (acc2 : List Char) (col : Nat) =>
            (xs[col + y * 40]?).map fun xv =>
              acc2 ++ [if ((col : Int) - xv).natAbs ≤ 1 then '#' else '.'])
          acc).map fun acc3 => acc3 ++ ['\n'])
      acc = some res →
    ∃ rows : List (List Char), rows.length = n ∧
      (∀ r ∈ rows, r.length = 40 ∧ ∀ c ∈ r, c ≠ '\n') ∧
      res = acc ++ (rows.map (fun r => r ++ ['\n'])).flatten := by
  intro n
  induction n with
  | zero =>
    intro acc res h
    have h2 : some acc = some res := h
    exact ⟨[], rfl, fun r hr => absurd hr (List.not_mem_nil r),
      by rw [← Option.some_inj.mp h2]; simp⟩
  | succ n ih =>
    intro acc res h
    rw [show List.range (n + 1) = List.range n ++ [n] from List.range_succ n,
      List.foldlM_append] at h
    cases hmid : (List.range n).foldlM
        (fun (acc : List Char) (y : Nat) =>
          ((List.range 40).foldlM
            (fun (acc2 : List Char) (col : Nat) =>
              (xs[col + y * 40]?).map fun xv =>
                acc2 ++ [if ((col : Int) - xv).natAbs ≤ 1 then '#' else '.'])
            acc).map fun acc3 => acc3 ++ ['\n'])
        acc with
    | none => rw [hmid] at h; exact absurd h (by simp)
    | some mid =>
      rw [hmid] at h
      have h2 : (((List.range 40).foldlM
          (fun (acc2 : List Char) (col : Nat) =>
            (xs[col + n * 40]?).map fun xv =>
              acc2 ++ [if ((col : Int) - xv).natAbs ≤ 1 then '#' else '.'])
          mid).map fun acc3 => acc3 ++ ['\n'])
            >>= (fun b => some b) = some res := h
      cases hrow : (List.range 40).foldlM
          (fun (acc2 : List Char) (col : Nat) =>
            (xs[col + n * 40]?).map fun xv =>
              acc2 ++ [if ((col : Int) - xv).natAbs ≤ 1 then '#' else '.'])
          mid with
      | none => rw [hrow] at h2; exact absurd h2 (by simp)
      | some acc3 =>
        rw [hrow] at h2
        have h3 : some (acc3 ++ ['\n']) = some res := h2
        obtain ⟨row, hrow2, hlen40, hnl⟩ := day10_row_struct xs n 40 mid acc3 hrow
        obtain ⟨rows, hlen, hprop, hres⟩ := ih acc mid hmid
        refine ⟨rows ++ [row], by simp [hlen], ?_, ?_⟩
        · intro r hr
          rcases List.mem_append.mp hr with hr1 | hr1
          · exact hprop r hr1
          · rw [List.mem_singleton.mp hr1]
            exact ⟨hlen40, hnl⟩
        · rw [← Option.some_inj.mp h3, hrow2, hres]
          simp [List.append_assoc]

theorem day02_mainOut_lines (s : String) :
    rustLines (String.mk (Day02.mainOut s)) =
      ["Part 1: " ++
        toString (Day02.calculate_part s Day02.part1_round_score),
       "Part 2: " ++
        toString (Day02.calculate_part s Day02.part2_round_score)] := by
  have he : Day02.mainOut s =
      (List.map (fun s0 => s0 ++ ['\n'])
        ["Part 1: ".data ++
          (toString (Day02.calculate_part s Day02.part1_round_score)).data,
         "Part 2: ".data ++
          (toString (Day02.calculate_part s Day02.part2_round_score)).data]).flatten := by
    rw [Day02.mainOut]
    simp [List.append_assoc]
  rw [he, rustLines_flat _ ?_ (by simp)]
  · rw [List.map_cons, List.map_cons, List.map_nil, mk_append, mk_append]
  · intro s0 hs0
    rcases List.mem_cons.mp hs0 with h1 | h1
    · subst h1
      intro hmem
      rcases List.mem_append.mp hmem with h2 | h2
      · exact absurd h2 (by decide)
      · exact natRepr_ne_newline _ '\n' h2 rfl
    · rcases List.mem_cons.mp h1 with h2 | h2
      · subst h2
        intro hmem
        rcases List.mem_append.mp hmem with h3 | h3
        · exact absurd h3 (by decide)
        · exact natRepr_ne_newline _ '\n' h3 rfl
      · exact absurd h2 (List.not_mem_nil _)

theorem day10_mainOut_lines (s : String) (out : List Char)
    (h : Day10.mainOut s = some out) :
    ∃ p1v, Day10.part1 s = some p1v ∧
      (rustLines (String.mk out)).length = 9 ∧
      (rustLines (String.mk out)).take 2 =
        ["Part 1: " ++ toString p1v, "Part 2:"] := by
  have h0 : (Day10.part1 s).bind (fun p1 =>
      (Day10.part2 s).map fun p2 =>
        ("Part 1: ".data ++ (toString p1).data ++ ['\n'])
          ++ ("Part 2:".data ++ ['\n'] ++ p2 ++ ['\n'])) = some out := h
  cases hp1 : Day10.part1 s with
  | none => rw [hp1] at h0; exact absurd h0 (by simp)
  | some p1v =>
    rw [hp1] at h0
    have h1 : ((Day10.part2 s).map fun p2 =>
        ("Part 1: ".data ++ (toString p1v).data ++ ['\n'])
          ++ ("Part 2:".data ++ ['\n'] ++ p2 ++ ['\n'])) = some out := h0
    cases hp2 : Day10.part2 s with
    | none => rw [hp2] at h1; exact absurd h1 (by simp)
    | some p2 =>
      rw [hp2] at h1
      have hout : ("Part 1: ".data ++ (toString p1v).data ++ ['\n'])
          ++ ("Part 2:".data ++ ['\n'] ++ p2 ++ ['\n']) = out :=
        Option.some_inj.mp h1
      have hp2' : (Day10.simMachine s).bind (fun xs =>
          (List.range 6).foldlM
            (fun (acc : List Char) (y : Nat) =>
              ((List.range 40).foldlM
                (fun (acc2 : List Char) (col : Nat) =>
                  (xs[col + y * 40]?).map fun xv =>
                    acc2 ++
                      [if ((col : Int) - xv).natAbs ≤ 1 then '#' else '.'])
                acc).map fun acc3 => acc3 ++ ['\n'])
            ([] : List Char)) = some p2 := hp2
      cases hsim : Day10.simMachine s with
      | none => rw [hsim] at hp2'; exact absurd hp2' (by simp)
      | some xs =>
        rw [hsim] at hp2'
        have hp2'' : (List.range 6).foldlM
            (fun (acc : List Char) (y : Nat) =>
              ((List.range 40).foldlM
                (fun (acc2 : List Char) (col : Nat) =>
                  (xs[col + y * 40]?).map fun xv =>
                    acc2 ++
                      [if ((col : Int) - xv).natAbs ≤ 1 then '#' else '.'])
                acc).map fun acc3 => acc3 ++ ['\n'])
            ([] : List Char) = some p2 := hp2'
        obtain ⟨rows, hlen, hprop, hres⟩ := day10_rows_struct xs 6 [] p2 hp2''
        have hsegs : out =
            (List.map (fun s0 => s0 ++ ['\n'])
              (("Part 1: ".data ++ (toString p1v).data)
                :: "Part 2:".data :: (rows ++ [[]]))).flatten := by
          rw [← hout, hres]
          simp [List.append_assoc]
        have hnf : ∀ s0 ∈ ("Part 1: ".data ++ (toString p1v).data)
            :: "Part 2:".data :: (rows ++ [[]]), '\n' ∉ s0 := by
          intro s0 hs0
          rcases List.mem_cons.mp hs0 with h1 | h1
          · subst h1
            intro hmem
            rcases List.mem_append.mp hmem with h2 | h2
            · exact absurd h2 (by decide)
            · exact intRepr_ne_newline _ '\n' h2 rfl
          · rcases List.mem_cons.mp h1 with h2 | h2
            · subst h2; decide
            · rcases List.mem_append.mp h2 with h3 | h3
              · intro hmem
                exact (hprop s0 h3).2 '\n' hmem rfl
              · rw [List.mem_singleton.mp h3]
                exact List.not_mem_nil '\n'
        rw [hsegs, rustLines_flat _ hnf (by simp)]
        refine ⟨p1v, rfl, ?_, ?_⟩
        · simp [hlen]
        · rw [List.map_cons, List.map_cons, List.take_succ_cons,
            List.take_succ_cons, List.take_zero, mk_append]

set_option maxRecDepth 100000 in
/-- Claim C5, counterexample: day10 does not write exactly two lines: on
the well-formed input of 240 noops its standard output has 9 lines ("Part
1: 720", a bare "Part 2:" label, six 40-column image rows, and the blank
line from the image's trailing newline followed by println's own), so the
part-2 value is not a single answer on the same line as its label. -/
theorem claim5_day10_multiline :
    (Day10.mainOut Day10.noops240).map
        (fun out => (rustLines (String.mk out)).length) = some 9 ∧
    (9 : Nat) ≠ 2 := by
  constructor
  · decide
  · decide

/-- The standard output of day10's main on the well-formed input of 240
noops: "Part 1: 720", the bare "Part 2:" label, and six CRT rows lighting
columns 0-2 (the sprite never moves from x = 1). -/
def day10_noops_output : List Char :=
  "Part 1: 720\nPart 2:\n".data
    ++ ((List.replicate 6
        (['#', '#', '#'] ++ List.replicate 37 '.' ++ ['\n'])).flatten)
    ++ ['\n']

/-- Claim C5 as amended: day02's main writes exactly two lines for every
input, "Part 1: <value>" and "Part 2: <value>" with each value a single
scalar on the label's line; day10's main instead writes nine lines on every
input it succeeds on - "Part 1: <value>", then the bare "Part 2:" label,
then the 40x6 CRT image and the blank line of its trailing newline - so the
uniform two-line discipline does not hold. -/
theorem claim5_output_shape :
    (∀ s, rustLines (String.mk (Day02.mainOut s)) =
      ["Part 1: " ++
        toString (Day02.calculate_part s Day02.part1_round_score),
       "Part 2: " ++
        toString (Day02.calculate_part s Day02.part2_round_score)]) ∧
    (∀ s out, Day10.mainOut s = some out →
      ∃ p1v, Day10.part1 s = some p1v ∧
        (rustLines (String.mk out)).length = 9 ∧
        (rustLines (String.mk out)).take 2 =
          ["Part 1: " ++ toString p1v, "Part 2:"]) :=
  ⟨day02_mainOut_lines, day10_mainOut_lines⟩

set_option maxRecDepth 100000 in
/-- Witness for claim C5: the day10 half applied to the 240-noop input and
its concrete output, and the day02 half applied to "A X". -/
theorem claim5_witness :
    Day10.mainOut Day10.noops240 = some day10_noops_output ∧
    (∃ p1v, Day10.part1 Day10.noops240 = some p1v ∧
      (rustLines (String.mk day10_noops_output)).length = 9 ∧
      (rustLines (String.mk day10_noops_output)).take 2 =
        ["Part 1: " ++ toString p1v, "Part 2:"]) ∧
    rustLines (String.mk (Day02.mainOut "A X")) =
      ["Part 1: " ++
        toString (Day02.calculate_part "A X" Day02.part1_round_score),
       "Part 2: " ++
        toString (Day02.calculate_part "A X" Day02.part2_round_score)] :=
  ⟨by decide,
   claim5_output_shape.2 Day10.noops240 day10_noops_output (by decide),
   claim5_output_shape.1 "A X"⟩

namespace Day21

/-- Monkey expression tree for day21 part 2: the unfolding of the monkey
name map in which "humn" appears as a distinguished leaf. -/
inductive MTree
| humn
| const (v : Nat)
| node (o : Operation) (a b : MTree)
deriving DecidableEq

/-- MonkeyContext::has_human on trees. -/
def hasHumanT : MTree → Bool
| .humn => true
| .const _ => false
| .node _ a b => hasHumanT a || hasHumanT b

/-- MonkeyContext::get_value on trees with the constant stored for "humn"
replaced by hv; u64 arithmetic wraps, and u64 division truncates (division
by zero, a Rust panic, is excluded by the exactness side conditions of the
claim wherever a division is performed). -/
def evalT (hv : Nat) : MTree → Nat
| .humn => hv % U64
| .const v => v % U64
| .node o a b =>
  match o with
  | .add => add64 (evalT hv a) (evalT hv b)
  | .sub => sub64 (evalT hv a) (evalT hv b)
  | .mul => mul64 (evalT hv a) (evalT hv b)
  | .div => evalT hv a / evalT hv b

/-- MonkeyContext::human_value_to_make_eq on trees: hv is the original
"humn" constant (used only through get_value on the non-human operand). -/
def solveT (hv : Nat) : MTree → Nat → Option Nat
| .humn, v => some v
| .const _, _ => none
| .node o a b, v =>
  if hasHumanT a then
    solveT hv a
      (match o with
       | .add => sub64 v (evalT hv b)
       | .sub => add64 v (evalT hv b)
       | .mul => v / evalT hv b
       | .div => mul64 v (evalT hv b))
  else if hasHumanT b then
    solveT hv b
      (match o with
       | .add => sub64 v (evalT hv a)
       | .sub => sub64 (evalT hv a) v
       | .mul => v / evalT hv a
       | .div => evalT hv a / v)
  else none

/-- Exactness of every u64 operation performed while evaluating e (the
claim's hypothesis for the check): no additive or multiplicative overflow,
no subtraction underflow, no truncating or zero division. -/
def EvalExact (hv : Nat) : MTree → Bool
| .humn => true
| .const _ => true
| .node o a b =>
  EvalExact hv a && EvalExact hv b &&
  (match o with
   | .add => decide (evalT hv a + evalT hv b < U64)
   | .sub => decide (evalT hv b ≤ evalT hv a)
   | .mul => decide (evalT hv a * evalT hv b < U64)
   | .div => decide (evalT hv b ≠ 0 ∧ evalT hv b ∣ evalT hv a))

/-- Exactness of every u64 operation performed during the solve (the
claim's hypothesis), including that "humn" occurs in exactly one operand of
each node on the path and that the evaluations of the non-human operands
are themselves exact. -/
def SolveExact (hv : Nat) : MTree → Nat → Bool
| .humn, _ => true
| .const _, _ => false
| .node o a b, v =>
  if hasHumanT a then
    !hasHumanT b && EvalExact hv b &&
    (match o with
     | .add => decide (evalT hv b ≤ v) && SolveExact hv a (sub64 v (evalT hv b))
     | .sub => decide (v + evalT hv b < U64) &&
         SolveExact hv a (add64 v (evalT hv b))
     | .mul => decide (evalT hv b ≠ 0 ∧ evalT hv b ∣ v) &&
         SolveExact hv a (v / evalT hv b)
     | .div => decide (evalT hv b ≠ 0 ∧ v * evalT hv b < U64) &&
         SolveExact hv a (mul64 v (evalT hv b)))
  else
    hasHumanT b && EvalExact hv a &&
    (match o with
     | .add => decide (evalT hv a ≤ v) && SolveExact hv b (sub64 v (evalT hv a))
     | .sub => decide (v ≤ evalT hv a) && SolveExact hv b (sub64 (evalT hv a) v)
     | .mul => decide (evalT hv a ≠ 0 ∧ evalT hv a ∣ v) &&
         SolveExact hv b (v / evalT hv a)
     | .div => decide (v ≠ 0 ∧ v ∣ evalT hv a ∧ evalT hv a ≠ 0) &&
         SolveExact hv b (evalT hv a / v))

theorem U64_pos : 0 < U64 := by
  norm_num [U64]

theorem add64_eq {a b : Nat} (h : a + b < U64) : add64 a b = a + b :=
  Nat.mod_eq_of_lt h

theorem mul64_eq {a b : Nat} (h : a * b < U64) : mul64 a b = a * b :=
  Nat.mod_eq_of_lt h

theorem sub64_eq {a b : Nat} (hb : b ≤ a) (ha : a < U64) :
    sub64 a b = a - b := by
  unfold sub64
  rw [Nat.mod_eq_of_lt (lt_of_le_of_lt hb ha)]
  have h2 : a + (U64 - b) = (a - b) + U64 := by omega
  rw [h2, Nat.add_mod_right, Nat.mod_eq_of_lt (by omega)]

theorem evalT_lt (hv : Nat) : ∀ e : MTree, evalT hv e < U64 := by
  intro e
  induction e with
  | humn => exact Nat.mod_lt _ U64_pos
  | const v => exact Nat.mod_lt _ U64_pos
  | node o a b iha ihb =>
    cases o with
    | add => exact Nat.mod_lt _ U64_pos
    | sub => exact Nat.mod_lt _ U64_pos
    | mul => exact Nat.mod_lt _ U64_pos
    | div => exact Nat.lt_of_le_of_lt (Nat.div_le_self _ _) iha

theorem evalT_indep (h1 h2 : Nat) :
    ∀ e : MTree, hasHumanT e = false → evalT h1 e = evalT h2 e := by
  intro e
  induction e with
  | humn => intro h; simp [hasHumanT] at h
  | const v => intro _; rfl
  | node o a b iha ihb =>
    intro h
    simp only [hasHumanT, Bool.or_eq_false_iff] at h
    cases o <;> simp only [evalT, iha h.1, ihb h.2]

theorem solveT_correct (hv : Nat) :
    ∀ (e : MTree) (v : Nat), v < U64 → SolveExact hv e v = true →
      ∃ h, solveT hv e v = some h ∧ evalT h e = v := by
  intro e
  induction e with
  | humn =>
    intro v hv64 _
    exact ⟨v, rfl, by simp [evalT, Nat.mod_eq_of_lt hv64]⟩
  | const c =>
    intro v _ hse
    simp [SolveExact] at hse
  | node o a b iha ihb =>
    intro v hv64 hse
    by_cases hha : hasHumanT a = true
    · simp only [SolveExact, if_pos hha] at hse
      simp only [Bool.and_eq_true, Bool.not_eq_true', decide_eq_true_eq] at hse
      obtain ⟨⟨hhb, hEb⟩, hrest⟩ := hse
      have hbindep : ∀ h0, evalT h0 b = evalT hv b :=
        fun h0 => evalT_indep h0 hv b hhb
      cases o with
      | add =>
        simp only [Bool.and_eq_true, decide_eq_true_eq] at hrest
        obtain ⟨hle, hrec⟩ := hrest
        have htm : sub64 v (evalT hv b) = v - evalT hv b := sub64_eq hle hv64
        obtain ⟨h, hsol, heval⟩ := iha _ (by rw [htm]; omega) hrec
        refine ⟨h, ?_, ?_⟩
        · rw [solveT, if_pos hha]
          exact hsol
        · rw [show evalT h (MTree.node Operation.add a b)
              = add64 (evalT h a) (evalT h b) from rfl]
          rw [heval, htm, hbindep h, add64_eq (by omega)]
          omega
      | sub =>
        simp only [Bool.and_eq_true, decide_eq_true_eq] at hrest
        obtain ⟨hlt, hrec⟩ := hrest
        have htm : add64 v (evalT hv b) = v + evalT hv b := add64_eq hlt
        obtain ⟨h, hsol, heval⟩ := iha _ (by rw [htm]; omega) hrec
        refine ⟨h, ?_, ?_⟩
        · rw [solveT, if_pos hha]
          exact hsol
        · rw [show evalT h (MTree.node Operation.sub a b)
              = sub64 (evalT h a) (evalT h b) from rfl]
          rw [heval, htm, hbindep h, sub64_eq (by omega) (by omega)]
          omega
      | mul =>
        simp only [Bool.and_eq_true, decide_eq_true_eq] at hrest
        obtain ⟨⟨hne, hdvd⟩, hrec⟩ := hrest
        obtain ⟨h, hsol, heval⟩ := iha _
          (Nat.lt_of_le_of_lt (Nat.div_le_self _ _) hv64) hrec
        refine ⟨h, ?_, ?_⟩
        · rw [solveT, if_pos hha]
          exact hsol
        · rw [show evalT h (MTree.node Operation.mul a b)
              = mul64 (evalT h a) (evalT h b) from rfl]
          rw [heval, hbindep h, mul64, Nat.div_mul_cancel hdvd,
            Nat.mod_eq_of_lt hv64]
      | div =>
        simp only [Bool.and_eq_true, decide_eq_true_eq] at hrest
        obtain ⟨⟨hne, hlt⟩, hrec⟩ := hrest
        have htm : mul64 v (evalT hv b) = v * evalT hv b := mul64_eq hlt
        obtain ⟨h, hsol, heval⟩ := iha _ (by rw [htm]; exact hlt) hrec
        refine ⟨h, ?_, ?_⟩
        · rw [solveT, if_pos hha]
          exact hsol
        · rw [show evalT h (MTree.node Operation.div a b)
              = evalT h a / evalT h b from rfl]
          rw [heval, htm, hbindep h,
            Nat.mul_div_cancel v (Nat.pos_of_ne_zero hne)]
    · simp only [SolveExact, if_neg hha] at hse
      simp only [Bool.and_eq_true, decide_eq_true_eq] at hse
      obtain ⟨⟨hhb, hEa⟩, hrest⟩ := hse
      have hha2 : hasHumanT a = false := by
        cases hq : hasHumanT a
        · rfl
        · exact absurd hq hha
      have haindep : ∀ h0, evalT h0 a = evalT hv a :=
        fun h0 => evalT_indep h0 hv a hha2
      cases o with
      | add =>
        simp only [Bool.and_eq_true, decide_eq_true_eq] at hrest
        obtain ⟨hle, hrec⟩ := hrest
        have htm : sub64 v (evalT hv a) = v - evalT hv a := sub64_eq hle hv64
        obtain ⟨h, hsol, heval⟩ := ihb _ (by rw [htm]; omega) hrec
        refine ⟨h, ?_, ?_⟩
        · rw [solveT, if_neg hha, if_pos hhb]
          exact hsol
        · rw [show evalT h (MTree.node Operation.add a b)
              = add64 (evalT h a) (evalT h b) from rfl]
          rw [heval, htm, haindep h, add64_eq (by omega)]
          omega
      | sub =>
        simp only [Bool.and_eq_true, decide_eq_true_eq] at hrest
        obtain ⟨hle, hrec⟩ := hrest
        have halt : evalT hv a < U64 := evalT_lt hv a
        have htm : sub64 (evalT hv a) v = evalT hv a - v := sub64_eq hle halt
        obtain ⟨h, hsol, heval⟩ := ihb _ (by omega) hrec
        refine ⟨h, ?_, ?_⟩
        · rw [solveT, if_neg hha, if_pos hhb]
          exact hsol
        · rw [show evalT h (MTree.node Operation.sub a b)
              = sub64 (evalT h a) (evalT h b) from rfl]
          rw [heval, htm, haindep h, sub64_eq (by omega) halt]
          omega
      | mul =>
        simp only [Bool.and_eq_true, decide_eq_true_eq] at hrest
        obtain ⟨⟨hne, hdvd⟩, hrec⟩ := hrest
        obtain ⟨h, hsol, heval⟩ := ihb _
          (Nat.lt_of_le_of_lt (Nat.div_le_self _ _) hv64) hrec
        refine ⟨h, ?_, ?_⟩
        · rw [solveT, if_neg hha, if_pos hhb]
          exact hsol
        · rw [show evalT h (MTree.node Operation.mul a b)
              = mul64 (evalT h a) (evalT h b) from rfl]
          rw [heval, haindep h, mul64, Nat.mul_div_cancel' hdvd,
            Nat.mod_eq_of_lt hv64]
      | div =>
        simp only [Bool.and_eq_true, decide_eq_true_eq] at hrest
        obtain ⟨⟨hvne, hdvd, hane⟩, hrec⟩ := hrest
        have halt : evalT hv a < U64 := evalT_lt hv a
        obtain ⟨h, hsol, heval⟩ := ihb _
          (Nat.lt_of_le_of_lt (Nat.div_le_self _ _) halt) hrec
        refine ⟨h, ?_, ?_⟩
        · rw [solveT, if_neg hha, if_pos hhb]
          exact hsol
        · rw [show evalT h (MTree.node Operation.div a b)
              = evalT h a / evalT h b from rfl]
          rw [heval, haindep h, Nat.div_div_self hdvd hane]

end Day21

namespace Day19

/-- Resource from day19.rs. -/
inductive Res
| ore
| clay
| obsidian
| geode
deriving DecidableEq

/-- Resource::all from day19.rs. -/
def Res.all : List Res := [.ore, .clay, .obsidian, .geode]

/-- ResourceCollection from day19.rs (geode never stored). -/
structure RC where
  ore : Nat
  clay : Nat
  obsidian : Nat
deriving DecidableEq

/-- ResourceCollection::of_type from day19.rs; Geode is always 0. -/
def RC.ofType (rc : RC) : Res → Nat
| .ore => rc.ore
| .clay => rc.clay
| .obsidian => rc.obsidian
| .geode => 0

/-- Blueprint from day19.rs. -/
structure BP where
  number : Nat
  oreRobot : RC
  clayRobot : RC
  obsidianRobot : RC
  geodeRobot : RC
deriving DecidableEq

/-- Blueprint::cost_of from day19.rs. -/
def BP.costOf (b : BP) : Res → RC
| .ore => b.oreRobot
| .clay => b.clayRobot
| .obsidian => b.obsidianRobot
| .geode => b.geodeRobot

/-- most_expensive as precomputed by Blueprint::new: for each resource the
largest amount of it any robot costs. -/
def BP.mostExpensive (b : BP) : RC :=
⟨(Res.all.map fun r => (b.costOf r).ofType .ore).foldl max 0,
 (Res.all.map fun r => (b.costOf r).ofType .clay).foldl max 0,
 (Res.all.map fun r => (b.costOf r).ofType .obsidian).foldl max 0⟩

/-- State from day19.rs (the blueprint reference is passed separately). -/
structure St where
  remainingTicks : Nat
  score : Nat
  resources : RC
  robots : RC
  relevant : List Res
deriving DecidableEq

/-- State::new from day19.rs: one ore robot, nothing else, all resources
initially relevant. -/
def initSt (maxTicks : Nat) : St :=
⟨maxTicks, 0, ⟨0, 0, 0⟩, ⟨1, 0, 0⟩, Res.all⟩

/-- State::can_afford from day19.rs. -/
def canAfford (s : St) (cost : RC) : Bool :=
cost.ore ≤ s.resources.ore && cost.clay ≤ s.resources.clay
  && cost.obsidian ≤ s.resources.obsidian

/-- weird_div_ceil from day19.rs: 0 for a = 0, otherwise
((a + b) - 1).checked_div(b), which is None exactly when b = 0. -/
def weirdDivCeil (a b : Nat) : Option Nat :=
if a = 0 then some 0
else if b = 0 then none
else some ((a + b - 1) / b)

/-- State::ticks_until_afford from day19.rs: the maximum over the three
resources of the ceiling division of the missing amount by the production
rate (saturating subtraction, as in the source). -/
def ticksUntilAfford (s : St) (cost : RC) : Option Nat :=
match weirdDivCeil (cost.ore - s.resources.ore) s.robots.ore,
      weirdDivCeil (cost.clay - s.resources.clay) s.robots.clay,
      weirdDivCeil (cost.obsidian - s.resources.obsidian) s.robots.obsidian with
| some a, some b, some c => some (max (max a b) c)
| _, _, _ => none

/-- State::build_robot from day19.rs: a geode robot adds the remaining
ticks to the score instead of being stored. -/
def buildRobot (s : St) (r : Res) : St :=
match r with
| .ore => { s with robots := { s.robots with ore := s.robots.ore + 1 } }
| .clay => { s with robots := { s.robots with clay := s.robots.clay + 1 } }
| .obsidian =>
  { s with robots := { s.robots with obsidian := s.robots.obsidian + 1 } }
| .geode => { s with score := s.score + s.remainingTicks }

/-- State::try_pay from day19.rs. -/
def tryPay (s : St) (cost : RC) : Bool × St :=
if canAfford s cost then
  (true, { s with resources :=
    ⟨s.resources.ore - cost.ore, s.resources.clay - cost.clay,
     s.resources.obsidian - cost.obsidian⟩ })
else (false, s)

/-- State::tick from day19.rs: advance n ticks, collect production, and
then retain in `relevant` exactly the resources r with
remaining_ticks * most_expensive(r) <= resources(r) + remaining_ticks * robots(r),
the comparison written in the source. -/
def tick (b : BP) (s : St) (n : Nat) : St :=
let s2 : St := { s with
  remainingTicks := s.remainingTicks - n,
  resources :=
    ⟨s.resources.ore + s.robots.ore * n,
     s.resources.clay + s.robots.clay * n,
     s.resources.obsidian + s.robots.obsidian * n⟩ }
{ s2 with relevant := s2.relevant.filter fun r =>
    decide (s2.remainingTicks * (b.mostExpensive.ofType r)
      ≤ s2.resources.ofType r + s2.remainingTicks * (s2.robots.ofType r)) }

/-- State::try_wait_and_build from day19.rs. -/
def tryWaitAndBuild (b : BP) (s : St) (r : Res) : Option St :=
match ticksUntilAfford s (b.costOf r) with
| none => none
| some wait =>
  if wait < s.remainingTicks then
    let s1 := tick b s wait
    let s2 := (tryPay s1 (b.costOf r)).2
    let s3 := tick b s2 1
    some (buildRobot s3 r)
  else none

/-- One iteration of the loop in State::upper_bound from day19.rs. -/
def ubStep (b : BP) (s : St) : St :=
let cheaperObsidian : RC := { b.obsidianRobot with ore := 0 }
let cheaperGeode : RC := { b.geodeRobot with ore := 0 }
let p1 := tryPay s b.clayRobot
let p2 := tryPay p1.2 cheaperGeode
let p3 := tryPay p2.2 cheaperObsidian
let s4 := tick b p3.2 1
let s5 := buildRobot s4 .ore
let s6 := if p1.1 then buildRobot s5 .clay else s5
let s7 := if p2.1 then buildRobot s6 .obsidian else s6
if p3.1 then buildRobot s7 .geode else s7

/-- The upper_bound loop: each iteration ticks exactly once, so running
remaining_ticks iterations is the while remaining_ticks > 0 loop. -/
def ubGo (b : BP) : Nat → St → St
| 0, s => s
| k + 1, s => ubGo b k (ubStep b s)

/-- State::upper_bound from day19.rs. -/
def upperBound (b : BP) (s : St) : Nat := (ubGo b s.remainingTicks s).score

/-- The stack loop of explore_blueprint from day19.rs: pop a state, raise
the best lower bound to its score, and push (in `relevant` order, so popped
in reverse) every buildable child whose upper bound beats the current best;
fuel bounds the iteration count and `none` marks exhaustion. -/
def exploreGo (b : BP) : Nat → List St → Nat → Option Nat
| 0, _, _ => none
| _ + 1, [], best => some best
| fuel + 1, s :: stack, best =>
  let best2 := max best s.score
  let children := s.relevant.filterMap fun r =>
    match tryWaitAndBuild b s r with
    | none => none
    | some st => if upperBound b st > best2 then some st else none
  exploreGo b fuel (children.reverse ++ stack) best2

/-- explore_blueprint from day19.rs. -/
def exploreBlueprint (b : BP) (maxTicks fuel : Nat) : Option Nat :=
exploreGo b fuel [initSt maxTicks] 0

/-- part1 from day19.rs: the sum over blueprints of quality level
explore_blueprint(b, 24) * b.number. -/
def part1 (bps : List BP) (fuel : Nat) : Option Nat :=
(bps.mapM fun b => (exploreBlueprint b 24 fuel).map (· * b.number)).map
  List.sum

/-- Blueprint 1 of the embedded test input of day19.rs. -/
def bp1 : BP := ⟨1, ⟨4, 0, 0⟩, ⟨2, 0, 0⟩, ⟨3, 14, 0⟩, ⟨2, 0, 7⟩⟩
/-- Blueprint 2 of the embedded test input of day19.rs. -/
def bp2 : BP := ⟨2, ⟨2, 0, 0⟩, ⟨3, 0, 0⟩, ⟨3, 8, 0⟩, ⟨3, 0, 12⟩⟩

end Day19

set_option maxRecDepth 100000 in
/-- Claim C1, evaluation at the failing input: on the repository's own
embedded example blueprints the search returns 0, not the documented optima
9 and 12 (the repo's part1_example test asserts part1 = 33). The retain
condition in State::tick keeps precisely the resources that are already
saturated (max_required <= min_available), so after the first tick only
Geode stays branchable and no geode robot is ever affordable: every branch
dead-ends with score 0. -/
theorem claim1_day19_example_zero :
    Day19.exploreBlueprint Day19.bp1 24 100 = some 0 ∧
    Day19.exploreBlueprint Day19.bp2 24 100 = some 0 ∧
    Day19.part1 [Day19.bp1, Day19.bp2] 100 = some 0 ∧
    (0 : Nat) ≠ 33 := by
  refine ⟨by decide, by decide, by decide, by decide⟩

namespace Day16

/-- SolveContext from day16.rs, after parsing and sorting: the valves' flow
rates in sorted order, the adjacency lists by index, and the count of valves
with positive flow (which sort first). -/
structure VCtx where
  flows : List Nat
  adjacency : List (List Nat)
  nWithFlow : Nat
  deriving DecidableEq

/-- SolveContext::score_for_opening from day16.rs: flow * time_remaining is
a u16 multiplication and the sum with the table entry is a u16 addition,
both wrapping modulo 2^16; the opened bitset gains bit standing_at. -/
def scoreForOpening (c : VCtx) (prev : Nat → Nat → Nat)
    (timeRemaining standingAt opened : Nat) : Nat :=
  let openingScore := c.flows.getD standingAt 0 * timeRemaining % 65536
  let opened2 := opened ||| 2 ^ standingAt
  (openingScore + prev standingAt opened2) % 65536

/-- SolveContext::score_for_moving from day16.rs. -/
def scoreForMoving (c : VCtx) (prev : Nat → Nat → Nat)
    (movingTo opened : Nat) : Nat :=
  prev movingTo opened

/-- The body of the iproduct loop of SolveContext::solve from day16.rs for
one cell: carry over the do-nothing score from the previous layer, max with
opening when standing_at < n_with_flow and the bit is clear, then max with
moving along each tunnel. Every read is from the previous time layer. -/
def layerStep (c : VCtx) (prev : Nat → Nat → Nat)
    (timeRemaining standingAt opened : Nat) : Nat :=
  let score0 := prev standingAt opened
  let score1 :=
    if standingAt < c.nWithFlow ∧ ¬ opened.testBit standingAt then
      max score0 (scoreForOpening c prev timeRemaining standingAt opened)
    else score0
  (c.adjacency.getD standingAt []).foldl
    (fun acc movingTo => max acc (scoreForMoving c prev movingTo opened)) score1

/-- The score table built by SolveContext::solve from day16.rs: layer 0 is
the all-zero default initialization, and layer t+1 is computed cell by cell
from layer t (the loop at time_remaining = t+1 reads only time_remaining-1
entries, so the iteration order within a layer is immaterial). -/
def scoreT (c : VCtx) : Nat → Nat → Nat → Nat
  | 0 => fun _ _ => 0
  | t + 1 => layerStep c (scoreT c t) (t + 1)

/-- part1 from day16.rs: the table entry at (29, name_idx of AA, empty
bitset); the AA index is passed explicitly. -/
def part1 (c : VCtx) (aa : Nat) : Nat :=
  scoreT c 29 aa 0

/-- The same recursion as the score table but in exact (unbounded) natural
arithmetic: the mathematical Bellman optimum the claim describes. -/
def bellman (c : VCtx) : Nat → Nat → Nat → Nat
  | 0 => fun _ _ => 0
  | t + 1 => fun v opened =>
    let s0 := bellman c t v opened
    let s1 :=
      if v < c.nWithFlow ∧ ¬ opened.testBit v then
        max s0 (c.flows.getD v 0 * (t + 1) + bellman c t v (opened ||| 2 ^ v))
      else s0
    (c.adjacency.getD v []).foldl
      (fun acc w => max acc (bellman c t w opened)) s1

/-- One action of the claim's reference semantics: wait, open the current
valve, or move along one tunnel. -/
inductive Act where
  | wait : Act
  | doOpen : Act
  | move : Nat → Act
  deriving DecidableEq

/-- The claim's reference semantics, in exact arithmetic: a schedule of
exactly t actions starting at valve v with bitset `opened` already open.
Waiting contributes nothing; opening is allowed only if the current valve
has positive flow and is not yet open, and contributes flow * t for t the
remaining steps including this one; moving must follow one tunnel. -/
def runV (c : VCtx) : List Act → Nat → Nat → Nat → Option Nat
  | [], 0, _, _ => some 0
  | [], _ + 1, _, _ => none
  | _ :: _, 0, _, _ => none
  | Act.wait :: acts, t + 1, v, opened => runV c acts t v opened
  | Act.doOpen :: acts, t + 1, v, opened =>
      if 0 < c.flows.getD v 0 ∧ ¬ opened.testBit v then
        (runV c acts t v (opened ||| 2 ^ v)).map
          (fun m => c.flows.getD v 0 * (t + 1) + m)
      else none
  | Act.move w :: acts, t + 1, v, opened =>
      if w ∈ c.adjacency.getD v [] then runV c acts t w opened else none

theorem getD_le_sum (l : List Nat) (v : Nat) : l.getD v 0 ≤ l.sum := by
  induction l generalizing v with
  | nil => simp [List.getD]
  | cons x xs ih =>
    cases v with
    | zero => simp [List.getD]
    | succ n =>
      calc xs.getD n 0 ≤ xs.sum := ih n
        _ ≤ (x :: xs).sum := by simp [List.sum_cons]

theorem getD_pos_lt (l : List Nat) (v : Nat) (h : 0 < l.getD v 0) :
    v < l.length := by
  by_contra hlt
  rw [List.getD_eq_default _ _ (Nat.le_of_not_lt hlt)] at h
  exact Nat.lt_irrefl 0 h

theorem foldl_max_init (f : Nat → Nat) (l : List Nat) (a : Nat) :
    a ≤ l.foldl (fun acc w => max acc (f w)) a := by
  induction l generalizing a with
  | nil => exact Nat.le_refl a
  | cons x xs ih =>
    exact Nat.le_trans (Nat.le_max_left a (f x)) (ih (max a (f x)))

theorem foldl_max_le_mem (f : Nat → Nat) (l : List Nat) :
    ∀ a w, w ∈ l → f w ≤ l.foldl (fun acc v => max acc (f v)) a := by
  induction l with
  | nil => intro a w hw; cases hw
  | cons x xs ih =>
    intro a w hw
    rcases List.mem_cons.mp hw with h | h
    · subst h
      exact Nat.le_trans (Nat.le_max_right a (f w)) (foldl_max_init f xs _)
    · exact ih _ w h

theorem foldl_max_cases (f : Nat → Nat) (l : List Nat) (a : Nat) :
    l.foldl (fun acc w => max acc (f w)) a = a ∨
      ∃ w ∈ l, l.foldl (fun acc v => max acc (f v)) a = f w := by
  induction l generalizing a with
  | nil => exact Or.inl rfl
  | cons x xs ih =>
    rcases ih (max a (f x)) with h | ⟨w, hw, h⟩
    · have h2 : List.foldl (fun acc v => max acc (f v)) a (x :: xs) =
          max a (f x) := h
      rcases Nat.le_total a (f x) with hle | hle
      · refine Or.inr ⟨x, List.mem_cons_self x xs, ?_⟩
        rw [h2]
        exact Nat.max_eq_right hle
      · refine Or.inl ?_
        rw [show List.foldl (fun acc w => max acc (f w)) a (x :: xs) =
          max a (f x) from h]
        exact Nat.max_eq_left hle
    · exact Or.inr ⟨w, List.mem_cons_of_mem x hw, h⟩

theorem foldl_max_le_bound (f : Nat → Nat) (l : List Nat) (a B : Nat)
    (ha : a ≤ B) (hf : ∀ w ∈ l, f w ≤ B) :
    l.foldl (fun acc w => max acc (f w)) a ≤ B := by
  induction l generalizing a with
  | nil => exact ha
  | cons x xs ih =>
    exact ih _ (Nat.max_le.mpr ⟨ha, hf x (List.mem_cons_self x xs)⟩)
      (fun w hw => hf w (List.mem_cons_of_mem x hw))

theorem foldl_max_congr (f g : Nat → Nat) (l : List Nat) (a b : Nat)
    (hab : a = b) (hfg : ∀ w ∈ l, f w = g w) :
    l.foldl (fun acc w => max acc (f w)) a =
      l.foldl (fun acc w => max acc (g w)) b := by
  induction l generalizing a b with
  | nil => exact hab
  | cons x xs ih =>
    have hinit : max a (f x) = max b (g x) := by
      rw [hab, hfg x (List.mem_cons_self x xs)]
    exact ih (max a (f x)) (max b (g x)) hinit
      (fun w hw => hfg w (List.mem_cons_of_mem x hw))

theorem bellman_succ (c : VCtx) (t v opened : Nat) :
    bellman c (t + 1) v opened =
      (c.adjacency.getD v []).foldl
        (fun acc w => max acc (bellman c t w opened))
        (if v < c.nWithFlow ∧ ¬ opened.testBit v then
          max (bellman c t v opened)
            (c.flows.getD v 0 * (t + 1) + bellman c t v (opened ||| 2 ^ v))
        else bellman c t v opened) := rfl

theorem scoreT_succ (c : VCtx) (t v opened : Nat) :
    scoreT c (t + 1) v opened =
      (c.adjacency.getD v []).foldl
        (fun acc w => max acc (scoreT c t w opened))
        (if v < c.nWithFlow ∧ ¬ opened.testBit v then
          max (scoreT c t v opened)
            ((c.flows.getD v 0 * (t + 1) % 65536 +
              scoreT c t v (opened ||| 2 ^ v)) % 65536)
        else scoreT c t v opened) := rfl

/-- The total flow of the valves whose bit is not set in the bitset,
scanning the flow list from bit index i. -/
def remSumFrom : List Nat → Nat → Nat → Nat
  | [], _, _ => 0
  | f :: fs, opened, i =>
      (if opened.testBit i then 0 else f) + remSumFrom fs opened (i + 1)

/-- The total flow of the valves not yet open in the bitset. -/
def remSum (c : VCtx) (opened : Nat) : Nat := remSumFrom c.flows opened 0

theorem remSumFrom_le_sum (fs : List Nat) : ∀ opened i,
    remSumFrom fs opened i ≤ fs.sum := by
  induction fs with
  | nil => intro opened i; exact Nat.le_refl 0
  | cons f fs ih =>
    intro opened i
    rw [remSumFrom, List.sum_cons]
    refine Nat.add_le_add ?_ (ih opened (i + 1))
    split_ifs
    · exact Nat.zero_le f
    · exact Nat.le_refl f

theorem remSumFrom_congr (fs : List Nat) : ∀ S1 S2 i,
    (∀ j, i ≤ j → S1.testBit j = S2.testBit j) →
    remSumFrom fs S1 i = remSumFrom fs S2 i := by
  induction fs with
  | nil => intro S1 S2 i h; rfl
  | cons f fs ih =>
    intro S1 S2 i h
    rw [remSumFrom, remSumFrom, h i (Nat.le_refl i),
      ih S1 S2 (i + 1) (fun j hj => h j (Nat.le_of_succ_le hj))]

theorem remSumFrom_split (fs : List Nat) : ∀ S v i, i ≤ v →
    v - i < fs.length → ¬ S.testBit v →
    remSumFrom fs S i = fs.getD (v - i) 0 + remSumFrom fs (S ||| 2 ^ v) i := by
  induction fs with
  | nil => intro S v i hi hlen htb; exact absurd hlen (by simp)
  | cons f fs ih =>
    intro S v i hi hlen htb
    by_cases hvi : v = i
    · subst hvi
      have ht1 : (S ||| 2 ^ v).testBit v = true := by
        rw [Nat.testBit_or, Nat.testBit_two_pow_self, Bool.or_true]
      rw [remSumFrom, remSumFrom, Nat.sub_self, List.getD_cons_zero,
        if_neg htb, if_pos ht1,
        remSumFrom_congr fs S (S ||| 2 ^ v) (v + 1)
          (fun j hj => by
            rw [Nat.testBit_or, Nat.testBit_two_pow_of_ne
              (Nat.ne_of_lt hj), Bool.or_false])]
      omega
    · have hlt : i < v := Nat.lt_of_le_of_ne hi (fun he => hvi he.symm)
      have hd : v - i = (v - (i + 1)) + 1 := by omega
      rw [remSumFrom, remSumFrom, hd, List.getD_cons_succ]
      have hsame : (S ||| 2 ^ v).testBit i = S.testBit i := by
        rw [Nat.testBit_or, Nat.testBit_two_pow_of_ne
          (Nat.ne_of_gt hlt), Bool.or_false]
      rw [hsame, ih S v (i + 1) hlt
        (by simp only [List.length_cons] at hlen; omega) htb]
      omega

theorem bellman_le (c : VCtx) (hn : c.nWithFlow ≤ c.flows.length) :
    ∀ t v opened, bellman c t v opened ≤ remSum c opened * t := by
  intro t
  induction t with
  | zero => intro v opened; simp [bellman]
  | succ t ih =>
    intro v opened
    have hmono : ∀ S0, remSum c S0 * t ≤ remSum c S0 * (t + 1) :=
      fun S0 => Nat.mul_le_mul_left _ (Nat.le_succ t)
    rw [bellman_succ]
    refine foldl_max_le_bound _ _ _ _ ?_
      (fun w _ => Nat.le_trans (ih w opened) (hmono opened))
    split_ifs with hg
    · refine Nat.max_le.mpr ⟨Nat.le_trans (ih v opened) (hmono opened), ?_⟩
      have hsplit : remSum c opened =
          c.flows.getD v 0 + remSum c (opened ||| 2 ^ v) :=
        remSumFrom_split c.flows opened v 0 (Nat.zero_le v)
          (by simpa using Nat.lt_of_lt_of_le hg.1 hn) hg.2
      have h2 := ih v (opened ||| 2 ^ v)
      calc c.flows.getD v 0 * (t + 1) + bellman c t v (opened ||| 2 ^ v)
          ≤ c.flows.getD v 0 * (t + 1) + remSum c (opened ||| 2 ^ v) * (t + 1) :=
            Nat.add_le_add_left (Nat.le_trans h2 (hmono _)) _
        _ = remSum c opened * (t + 1) := by rw [hsplit, Nat.add_mul]
    · exact Nat.le_trans (ih v opened) (hmono opened)

theorem scoreT_eq_bellman (c : VCtx) (hn : c.nWithFlow ≤ c.flows.length) :
    ∀ t, c.flows.sum * t < 65536 →
    ∀ v opened, scoreT c t v opened = bellman c t v opened := by
  intro t
  induction t with
  | zero => intro _ v opened; rfl
  | succ t ih =>
    intro hlt v opened
    have hmono : c.flows.sum * t ≤ c.flows.sum * (t + 1) :=
      Nat.mul_le_mul_left _ (Nat.le_succ t)
    have hlt' : c.flows.sum * t < 65536 := Nat.lt_of_le_of_lt hmono hlt
    rw [scoreT_succ, bellman_succ]
    refine foldl_max_congr _ _ _ _ _ ?_ (fun w _ => ih hlt' w opened)
    split_ifs with hg
    · rw [ih hlt' v opened]
      have hvlen : v < c.flows.length := Nat.lt_of_lt_of_le hg.1 hn
      have hsplit : remSum c opened =
          c.flows.getD v 0 + remSum c (opened ||| 2 ^ v) :=
        remSumFrom_split c.flows opened v 0 (Nat.zero_le v)
          (by simpa using hvlen) hg.2
      have hrs : remSum c opened ≤ c.flows.sum := remSumFrom_le_sum _ _ _
      have hflow1 : c.flows.getD v 0 * (t + 1) ≤ c.flows.sum * (t + 1) :=
        Nat.mul_le_mul_right _ (getD_le_sum _ _)
      have hmod1 : c.flows.getD v 0 * (t + 1) % 65536 =
          c.flows.getD v 0 * (t + 1) :=
        Nat.mod_eq_of_lt (Nat.lt_of_le_of_lt hflow1 hlt)
      rw [ih hlt' v (opened ||| 2 ^ v), hmod1]
      have hsum : c.flows.getD v 0 * (t + 1) +
          bellman c t v (opened ||| 2 ^ v) < 65536 := by
        have h2 := bellman_le c hn t v (opened ||| 2 ^ v)
        have h3 : remSum c (opened ||| 2 ^ v) * t ≤
            remSum c (opened ||| 2 ^ v) * (t + 1) :=
          Nat.mul_le_mul_left _ (Nat.le_succ t)
        have h4 : c.flows.getD v 0 * (t + 1) +
            remSum c (opened ||| 2 ^ v) * (t + 1) =
            remSum c opened * (t + 1) := by rw [hsplit, Nat.add_mul]
        have h5 : remSum c opened * (t + 1) ≤ c.flows.sum * (t + 1) :=
          Nat.mul_le_mul_right _ hrs
        omega
      rw [Nat.mod_eq_of_lt hsum]
    · exact ih hlt' v opened

theorem runV_le_bellman (c : VCtx)
    (hn : c.nWithFlow ≤ c.flows.length)
    (hflow : ∀ w < c.flows.length,
      (0 < c.flows.getD w 0 ↔ w < c.nWithFlow)) :
    ∀ acts t v opened m, runV c acts t v opened = some m →
      m ≤ bellman c t v opened := by
  intro acts
  induction acts with
  | nil =>
    intro t v opened m h
    cases t with
    | zero =>
      have h0 : m = 0 := by
        have h1 : (some 0 : Option Nat) = some m := h
        exact (Option.some_inj.mp h1).symm
      simp [bellman, h0]
    | succ t => exact absurd h (by simp [runV])
  | cons a acts ih =>
    intro t v opened m h
    cases t with
    | zero =>
      exfalso
      cases a <;> simp [runV] at h
    | succ t =>
      rw [bellman_succ]
      cases a with
      | wait =>
        have hm : runV c acts t v opened = some m := h
        refine Nat.le_trans (Nat.le_trans (ih t v opened m hm) ?_)
          (foldl_max_init _ _ _)
        split_ifs with hg
        · exact Nat.le_max_left _ _
        · exact Nat.le_refl _
      | doOpen =>
        have hm : (if 0 < c.flows.getD v 0 ∧ ¬ opened.testBit v then
            (runV c acts t v (opened ||| 2 ^ v)).map
              (fun m0 => c.flows.getD v 0 * (t + 1) + m0)
          else none) = some m := h
        split_ifs at hm with hg
        · obtain ⟨m', hm', hmm⟩ := Option.map_eq_some'.mp hm
          have hv : v < c.nWithFlow :=
            (hflow v (getD_pos_lt _ _ hg.1)).mp hg.1
          have hg2 : v < c.nWithFlow ∧ ¬ opened.testBit v := ⟨hv, hg.2⟩
          refine Nat.le_trans ?_ (foldl_max_init _ _ _)
          rw [if_pos hg2]
          refine Nat.le_trans ?_ (Nat.le_max_right _ _)
          rw [← hmm]
          exact Nat.add_le_add_left (ih t v (opened ||| 2 ^ v) m' hm') _
      | move w =>
        have hm : (if w ∈ c.adjacency.getD v [] then
            runV c acts t w opened else none) = some m := h
        split_ifs at hm with hg
        · exact Nat.le_trans (ih t w opened m hm)
            (foldl_max_le_mem (fun w0 => bellman c t w0 opened) _ _ w hg)

theorem bellman_achievable (c : VCtx)
    (hn : c.nWithFlow ≤ c.flows.length)
    (hflow : ∀ w < c.flows.length,
      (0 < c.flows.getD w 0 ↔ w < c.nWithFlow)) :
    ∀ t v opened, ∃ acts,
      runV c acts t v opened = some (bellman c t v opened) := by
  intro t
  induction t with
  | zero => intro v opened; exact ⟨[], rfl⟩
  | succ t ih =>
    intro v opened
    rw [bellman_succ]
    rcases foldl_max_cases (fun w => bellman c t w opened)
        (c.adjacency.getD v []) _ with hcase | ⟨w, hw, hcase⟩
    · rw [hcase]
      split_ifs with hg
      · rcases Nat.le_total
            (c.flows.getD v 0 * (t + 1) + bellman c t v (opened ||| 2 ^ v))
            (bellman c t v opened) with hle | hle
        · rw [Nat.max_eq_left hle]
          obtain ⟨acts, hacts⟩ := ih v opened
          exact ⟨Act.wait :: acts, hacts⟩
        · rw [Nat.max_eq_right hle]
          obtain ⟨acts, hacts⟩ := ih v (opened ||| 2 ^ v)
          refine ⟨Act.doOpen :: acts, ?_⟩
          have hpos : 0 < c.flows.getD v 0 :=
            (hflow v (Nat.lt_of_lt_of_le hg.1 hn)).mpr hg.1
          show (if 0 < c.flows.getD v 0 ∧ ¬ opened.testBit v then
              (runV c acts t v (opened ||| 2 ^ v)).map
                (fun m0 => c.flows.getD v 0 * (t + 1) + m0)
            else none) = _
          rw [if_pos ⟨hpos, hg.2⟩, hacts]
          rfl
      · obtain ⟨acts, hacts⟩ := ih v opened
        exact ⟨Act.wait :: acts, hacts⟩
    · rw [hcase]
      obtain ⟨acts, hacts⟩ := ih w opened
      refine ⟨Act.move w :: acts, ?_⟩
      show (if w ∈ c.adjacency.getD v [] then
          runV c acts t w opened else none) = _
      rw [if_pos hw, hacts]

end Day16

/-- Claim C3 (main theorem): under the repo's valve-ordering invariant
(the n_with_flow positive-flow valves occupy the first indices) and the
no-overflow bound total-flow * 29 < 2^16 (every schedule opens each valve
at most once, so every exact score is at most total-flow * 29; the repo's
embedded example, total flow 81, satisfies it), every table entry
score[(t, v, S)] with t <= 29 is the greatest pressure achievable by any
schedule of t actions (wait / open the current closed positive-flow valve
for flow * t / move along a tunnel) starting at v with bitset S open, and
part1 is that optimum at (29, AA, empty set), i.e. for the 30-minute game.
Without the overflow bound the claim is false: the u16 table wraps modulo
2^16 (see the counterexample). -/
theorem claim3_day16_score_table_optimal (c : Day16.VCtx)
    (t v opened aa : Nat)
    (hn : c.nWithFlow ≤ c.flows.length)
    (hflow : ∀ w < c.flows.length,
      (0 < c.flows.getD w 0 ↔ w < c.nWithFlow))
    (ht : t ≤ 29)
    (hover : c.flows.sum * 29 < 65536) :
    IsGreatest {m | ∃ acts, Day16.runV c acts t v opened = some m}
      (Day16.scoreT c t v opened) ∧
    Day16.part1 c aa = Day16.scoreT c 29 aa 0 ∧
    IsGreatest {m | ∃ acts, Day16.runV c acts 29 aa 0 = some m}
      (Day16.part1 c aa) := by
  have hbound : ∀ s, s ≤ 29 → c.flows.sum * s < 65536 := by
    intro s hs
    exact Nat.lt_of_le_of_lt (Nat.mul_le_mul_left _ hs) hover
  have hmain : ∀ s, s ≤ 29 → ∀ v0 o0,
      IsGreatest {m | ∃ acts, Day16.runV c acts s v0 o0 = some m}
        (Day16.scoreT c s v0 o0) := by
    intro s hs v0 o0
    rw [Day16.scoreT_eq_bellman c hn s (hbound s hs) v0 o0]
    constructor
    · exact Day16.bellman_achievable c hn hflow s v0 o0
    · rintro m ⟨acts, hacts⟩
      exact Day16.runV_le_bellman c hn hflow acts s v0 o0 m hacts
  exact ⟨hmain t ht v opened, rfl, hmain 29 (Nat.le_refl 29) aa 0⟩

/-- Claim C3, counterexample to the claim as written: for the parseable
single-valve context with flow 60000 (a valid u16) and a self-loop tunnel,
opening at 2 remaining steps releases 60000 * 2 = 120000 pressure, but the
u16 table computes 60000 * 2 mod 2^16 = 54464 and stores max entry 60000:
the entry underestimates the true optimum, so it does not equal the
maximum releasable pressure. -/
theorem claim3_overflow_counterexample :
    Day16.runV ⟨[60000], [[0]], 1⟩ [Day16.Act.doOpen, Day16.Act.wait] 2 0 0 =
      some 120000 ∧
    Day16.scoreT ⟨[60000], [[0]], 1⟩ 2 0 0 = 60000 ∧
    ¬ (120000 ≤ 60000) :=
  ⟨by decide, by decide, by decide⟩

/-- Witness for claim C3's main theorem: a one-valve context with flow 13,
whose hypotheses all hold concretely. -/
theorem claim3_witness :
    ((⟨[13], [[0]], 1⟩ : Day16.VCtx).nWithFlow ≤
      (⟨[13], [[0]], 1⟩ : Day16.VCtx).flows.length) ∧
    (∀ w < (⟨[13], [[0]], 1⟩ : Day16.VCtx).flows.length,
      (0 < (⟨[13], [[0]], 1⟩ : Day16.VCtx).flows.getD w 0 ↔
        w < (⟨[13], [[0]], 1⟩ : Day16.VCtx).nWithFlow)) ∧
    (2 ≤ 29) ∧
    ((⟨[13], [[0]], 1⟩ : Day16.VCtx).flows.sum * 29 < 65536) ∧
    (IsGreatest
        {m | ∃ acts, Day16.runV ⟨[13], [[0]], 1⟩ acts 2 0 0 = some m}
        (Day16.scoreT ⟨[13], [[0]], 1⟩ 2 0 0) ∧
      Day16.part1 ⟨[13], [[0]], 1⟩ 0 = Day16.scoreT ⟨[13], [[0]], 1⟩ 29 0 0 ∧
      IsGreatest
        {m | ∃ acts, Day16.runV ⟨[13], [[0]], 1⟩ acts 29 0 0 = some m}
        (Day16.part1 ⟨[13], [[0]], 1⟩ 0)) :=
  ⟨by decide, by decide, by decide, by decide,
    claim3_day16_score_table_optimal ⟨[13], [[0]], 1⟩ 2 0 0 0 (by decide)
      (by decide) (by decide) (by decide)⟩

/-- Claim C9 (confirmed): when "humn" occurs in exactly one operand of each
node on the path and every u64 operation during the solve and the check is
exact (no underflow, no overflow, no truncating or zero division, which is
what SolveExact records), human_value_to_make_eq is a right inverse of
evaluation: re-evaluating the solved subtree with the "humn" constant
replaced by the returned value yields exactly the requested value; applied
at the root, part2's answer makes root's two operands equal. -/
theorem claim9_solve_right_inverse :
    (∀ (hv : Nat) (e : Day21.MTree) (v : Nat), v < Day21.U64 →
      Day21.SolveExact hv e v = true →
      ∃ h, Day21.solveT hv e v = some h ∧ Day21.evalT h e = v) ∧
    (∀ (hv : Nat) (eL eR : Day21.MTree),
      Day21.hasHumanT eR = false →
      Day21.SolveExact hv eL (Day21.evalT hv eR) = true →
      ∃ h, Day21.solveT hv eL (Day21.evalT hv eR) = some h ∧
        Day21.evalT h eL = Day21.evalT h eR) := by
  refine ⟨Day21.solveT_correct, ?_⟩
  intro hv eL eR hR hse
  obtain ⟨h, hsol, heval⟩ :=
    Day21.solveT_correct hv eL _ (Day21.evalT_lt hv eR) hse
  exact ⟨h, hsol, by rw [heval, Day21.evalT_indep hv h eR hR]⟩

/-- Witness for claim C9: the subtree humn - 3 solved against the target
298 yields h = 301, and re-evaluating with humn = 301 indeed gives 298. -/
theorem claim9_witness :
    ((298 : Nat) < Day21.U64 ∧
      Day21.SolveExact 5
        (Day21.MTree.node Day21.Operation.sub Day21.MTree.humn
          (Day21.MTree.const 3)) 298 = true) ∧
    ∃ h, Day21.solveT 5
        (Day21.MTree.node Day21.Operation.sub Day21.MTree.humn
          (Day21.MTree.const 3)) 298 = some h ∧
      Day21.evalT h
        (Day21.MTree.node Day21.Operation.sub Day21.MTree.humn
          (Day21.MTree.const 3)) = 298 :=
  ⟨⟨by decide, by decide⟩,
   claim9_solve_right_inverse.1 5 _ 298 (by decide) (by decide)⟩

/-- Claim C10 (confirmed): day 3's priority maps each ASCII lowercase letter
to its 1-based position in a..z (a value in 1..=26), each ASCII uppercase
letter to 26 plus its 1-based position in A..Z (a value in 27..=52), and is
injective on the ASCII letters. -/
theorem claim10_priority_spec :
    (∀ c : Char, 97 ≤ c.toNat → c.toNat ≤ 122 →
      Day03.priority c = (c.toNat - 97) + 1 ∧
      1 ≤ Day03.priority c ∧ Day03.priority c ≤ 26) ∧
    (∀ c : Char, 65 ≤ c.toNat → c.toNat ≤ 90 →
      Day03.priority c = 26 + ((c.toNat - 65) + 1) ∧
      27 ≤ Day03.priority c ∧ Day03.priority c ≤ 52) ∧
    (∀ c d : Char, Day03.AsciiLetter c → Day03.AsciiLetter d →
      Day03.priority c = Day03.priority d → c = d) := by
  refine ⟨?_, ?_, ?_⟩
  · intro c h1 h2
    have hl : Day03.is_ascii_lowercase c = true := by
      simp [Day03.is_ascii_lowercase, h1, h2]
    simp only [Day03.priority, hl, if_true]
    omega
  · intro c h1 h2
    have hl : Day03.is_ascii_lowercase c = false := by
      simp [Day03.is_ascii_lowercase]
      omega
    simp only [Day03.priority, hl, Bool.false_eq_true, if_false]
    omega
  · intro c d hc hd heq
    have key : ∀ e : Char, Day03.AsciiLetter e →
        (97 ≤ e.toNat ∧ e.toNat ≤ 122 ∧ Day03.priority e = e.toNat - 96) ∨
        (65 ≤ e.toNat ∧ e.toNat ≤ 90 ∧ Day03.priority e = e.toNat - 38) := by
      intro e he
      rcases he with h | h
      · refine Or.inl ⟨h.1, h.2, ?_⟩
        have hb : Day03.is_ascii_lowercase e = true := by
          simp [Day03.is_ascii_lowercase, h.1, h.2]
        simp [Day03.priority, hb]
      · refine Or.inr ⟨h.1, h.2, ?_⟩
        have hb : Day03.is_ascii_lowercase e = false := by
          simp [Day03.is_ascii_lowercase]
          omega
        simp [Day03.priority, hb]
    rcases key c hc with ⟨a1, a2, a3⟩ | ⟨a1, a2, a3⟩ <;>
      rcases key d hd with ⟨b1, b2, b3⟩ | ⟨b1, b2, b3⟩ <;>
      exact Char.ext (UInt32.ext (show c.toNat = d.toNat by omega))

/-- Witness for claim C10: the theorem applied to the concrete letters q
and D. -/
theorem claim10_witness :
    (97 ≤ 'q'.toNat ∧ 'q'.toNat ≤ 122 ∧ 65 ≤ 'D'.toNat ∧ 'D'.toNat ≤ 90) ∧
    (Day03.priority 'q' = ('q'.toNat - 97) + 1 ∧
      1 ≤ Day03.priority 'q' ∧ Day03.priority 'q' ≤ 26) ∧
    (Day03.priority 'D' = 26 + (('D'.toNat - 65) + 1) ∧
      27 ≤ Day03.priority 'D' ∧ Day03.priority 'D' ≤ 52) :=
  ⟨by decide,
   claim10_priority_spec.1 'q' (by decide) (by decide),
   claim10_priority_spec.2.1 'D' (by decide) (by decide)⟩

/-- Claim C6, counterexample: not every program embeds its puzzle's example
input — day01/src/main.rs has no test module at all, so it embeds no example
input and no expected answers. -/
theorem claim6_day01_no_example : Day01.embedded_example_tests = none := rfl

set_option maxRecDepth 100000 in
/-- Claim C6 as amended: day02's test module embeds its documented example
"A Y\nB X\nC Z\n" and its part functions yield the documented 15 and 12;
but the universal claim fails twice over: day01 and day04 have no test
module and embed no example at all (see the counterexample), and day19's
test module asserts part1 = 33 on its embedded example blueprints while
part1 actually yields 0 (the saturated-resource retain bug), so not every
embedded equality assertion reflects the part functions' values. -/
theorem claim6_day02_example_answers :
    (Day02.calculate_part "A Y\nB X\nC Z\n" Day02.part1_round_score = 15 ∧
     Day02.calculate_part "A Y\nB X\nC Z\n" Day02.part2_round_score = 12) ∧
    (Day19.part1 [Day19.bp1, Day19.bp2] 100 = some 0 ∧
     Day19.part1 [Day19.bp1, Day19.bp2] 100 ≠ some 33) := by
  refine ⟨⟨by decide, by decide⟩, by decide, by decide⟩

/-- Claim C4, counterexample: day02 does not abort on a malformed line; the
unrecognized line "Q Q" is silently scored as the default value 0 and the
program yields a result (part1_round_score is a total function with a
`_ => 0` arm, so no parse failure is possible at all). -/
theorem claim4_day02_default_zero :
    Day02.part1_round_score "Q Q" = 0 ∧
    Day02.calculate_part "Q Q" Day02.part1_round_score = 0 := by decide

/-- Rust `usize::from_str`: an optional leading '+', then one or more ASCII
digits, rejecting the empty digit string and values above usize::MAX (64-bit). -/
def parseUsize (s : String) : Option Nat :=
  let rest : List Char :=
    match s.data with
    | '+' :: r => r
    | r => r
  match rest with
  | [] => none
  | _ =>
    match digitsVal rest 0 with
    | none => none
    | some n => if n ≤ 2 ^ 64 - 1 then some n else none

namespace Day05

/-- Instruction from day05.rs. -/
structure Instruction where
  fromStack : Nat
  toStack : Nat
  amount : Nat
  deriving DecidableEq

/-- Instruction::parse from day05.rs: split the line on single spaces and
match the first six words against ("move", amount, "from", from, "to", to),
parsing the three numbers as usize; any other shape is an error. -/
def Instruction.parse (line : String) : Option Instruction :=
  match (splitChar ' ' [] line.data).map String.mk with
  | "move" :: a :: "from" :: f :: "to" :: t :: _ =>
    match parseUsize a with
    | none => none
    | some amount =>
      match parseUsize f with
      | none => none
      | some fr =>
        match parseUsize t with
        | none => none
        | some to2 => some ⟨fr, to2, amount⟩
  | _ => none

/-- The instruction phase of parse_input from day05.rs:
`.map(Instruction::parse).filter_map(Result::ok)` keeps the successfully
parsed instructions and silently drops every line that fails to parse. -/
def parseInstructions (lines : List String) : List Instruction :=
  lines.filterMap Instruction.parse

end Day05

theorem mapM_eq_none_of_mem {α β : Type} (f : α → Option β) :
    ∀ (l : List α) (x : α), x ∈ l → f x = none → l.mapM f = none := by
  intro l
  induction l with
  | nil => intro x hx; exact absurd hx (List.not_mem_nil x)
  | cons a as ih =>
    intro x hx hfx
    rw [List.mapM_cons]
    rcases List.mem_cons.mp hx with h | h
    · subst h
      rw [hfx]
      rfl
    · cases hfa : f a with
      | none => rfl
      | some b =>
        have hnone : as.mapM f = none := ih x h hfx
        rw [hnone]
        rfl

theorem listFromStr_fails (s : String) (line : String)
    (hmem : line ∈ rustLines s) (hbad : parseI64 line = none) :
    Day20.listFromStr s = none := by
  unfold Day20.listFromStr
  rw [mapM_eq_none_of_mem parseI64 (rustLines s) line hmem hbad]

theorem simMachine_fails (s : String) (line : String)
    (hmem : line ∈ rustLines s) (hbad : Day10.parseInst line = none) :
    Day10.simMachine s = none := by
  have hgen : ∀ (lines : List String) (st : Int × List Int),
      (∃ l ∈ lines, Day10.parseInst l = none) →
      lines.foldlM
        (fun st line =>
          match Day10.parseInst line with
          | none => none
          | some .noop => some (st.1, st.2 ++ [st.1])
          | some (.addx v) => some (st.1 + v, st.2 ++ [st.1, st.1]))
        st = none := by
    intro lines
    induction lines with
    | nil =>
      intro st h
      obtain ⟨l, hl, -⟩ := h
      exact absurd hl (List.not_mem_nil l)
    | cons a as ih =>
      intro st h
      rw [List.foldlM_cons]
      cases hpa : Day10.parseInst a with
      | none => rfl
      | some inst =>
        have hex : ∃ l ∈ as, Day10.parseInst l = none := by
          obtain ⟨l, hl, hbadl⟩ := h
          rcases List.mem_cons.mp hl with h1 | h1
          · subst h1
            rw [hpa] at hbadl
            exact absurd hbadl (by simp)
          · exact ⟨l, h1, hbadl⟩
        cases inst with
        | noop => exact ih (st.1, st.2 ++ [st.1]) hex
        | addx v => exact ih (st.1 + v, st.2 ++ [st.1, st.1]) hex
  unfold Day10.simMachine
  rw [hgen (rustLines s) (1, []) ⟨line, hmem, hbad⟩]
  rfl

theorem day05_drops (pre post : List String) (bad : String)
    (hbad : Day05.Instruction.parse bad = none) :
    Day05.parseInstructions (pre ++ bad :: post) =
      Day05.parseInstructions (pre ++ post) := by
  unfold Day05.parseInstructions
  rw [List.filterMap_append, List.filterMap_append, List.filterMap_cons,
    hbad]

/-- Claim C4 as amended: the fatal-on-parse-failure discipline is not
uniform. day20's List::from_str fails on any input containing a line that
is not a valid i64, and day10's simulate_machine fails on any input
containing a line that parses as neither noop nor addx (both proved for
every input and every bad line); but day02 silently scores every line
outside its nine recognized forms as the default 0 in both parts, and
day05's parse_input silently drops any instruction line rejected by
Instruction::parse (filter_map(Result::ok)) instead of failing. -/
theorem claim4_parse_failure_behaviour :
    (∀ s line, line ∈ rustLines s → parseI64 line = none →
      Day20.listFromStr s = none) ∧
    (∀ s line, line ∈ rustLines s → Day10.parseInst line = none →
      Day10.simMachine s = none) ∧
    (∀ line : String,
      line ∉ (["A X", "A Y", "A Z", "B X", "B Y", "B Z",
               "C X", "C Y", "C Z"] : List String) →
      Day02.part1_round_score line = 0 ∧ Day02.part2_round_score line = 0) ∧
    (∀ (pre post : List String) (bad : String),
      Day05.Instruction.parse bad = none →
      Day05.parseInstructions (pre ++ bad :: post) =
        Day05.parseInstructions (pre ++ post)) := by
  refine ⟨listFromStr_fails, simMachine_fails, ?_, day05_drops⟩
  intro line h
  simp only [List.mem_cons, List.mem_singleton, not_or] at h
  obtain ⟨h1, h2, h3, h4, h5, h6, h7, h8, h9, -⟩ := h
  constructor
  · simp [Day02.part1_round_score, h1, h2, h3, h4, h5, h6, h7, h8, h9]
  · simp [Day02.part2_round_score, h1, h2, h3, h4, h5, h6, h7, h8, h9]

/-- Witness for claim C4: each conjunct applied at a concrete input - the
day20 input "1\ntwo\n0\n" with bad line "two", the day10 input
"noop\noops\n" with bad line "oops", the day02 line "Q Q", and a day05
instruction list containing the malformed "move x from 1 to 2". -/
theorem claim4_witness :
    ("two" ∈ rustLines "1\ntwo\n0\n" ∧ parseI64 "two" = none ∧
      Day20.listFromStr "1\ntwo\n0\n" = none) ∧
    ("oops" ∈ rustLines "noop\noops\n" ∧ Day10.parseInst "oops" = none ∧
      Day10.simMachine "noop\noops\n" = none) ∧
    ("Q Q" ∉ (["A X", "A Y", "A Z", "B X", "B Y", "B Z",
               "C X", "C Y", "C Z"] : List String) ∧
      (Day02.part1_round_score "Q Q" = 0 ∧
        Day02.part2_round_score "Q Q" = 0)) ∧
    (Day05.Instruction.parse "move x from 1 to 2" = none ∧
      Day05.parseInstructions ["move 1 from 2 to 3", "move x from 1 to 2"] =
        Day05.parseInstructions ["move 1 from 2 to 3"]) :=
  ⟨⟨by decide, by decide,
    claim4_parse_failure_behaviour.1 "1\ntwo\n0\n" "two"
      (by decide) (by decide)⟩,
   ⟨by decide, by decide,
    claim4_parse_failure_behaviour.2.1 "noop\noops\n" "oops"
      (by decide) (by decide)⟩,
   ⟨by decide, claim4_parse_failure_behaviour.2.2.1 "Q Q" (by decide)⟩,
   ⟨by decide,
    claim4_parse_failure_behaviour.2.2.2 ["move 1 from 2 to 3"] []
      "move x from 1 to 2" (by decide)⟩⟩

